import Mathlib

/-!
# Bubble: lexer, parser and interpreter of `main.go`

A shallow embedding of the pipeline `lex`, `parse`, `interpret` of the Bubble
REPL, and theorems about it.

* A Go string is the list of its bytes.
* A float64 is modelled exactly (sign, mantissa, exponent), with the IEEE-754
  operations rounding to nearest, ties to even; `strconv.ParseFloat`,
  `strconv.FormatFloat` and the `%v` verb of `fmt` follow the documentation of
  the Go library.
* The Go values `interface{}`, `Expression` and `Statement` are sum types with
  a `nil` case where the source can hold `nil`.
* The global map `memory` is passed in and returned.
* An index out of range and a loop that does not end are results of the
  model (`Fault`).
-/

set_option maxRecDepth 100000

namespace Bubble

/-! ## Go strings -/

/-- A Go string is a sequence of bytes. -/
abbrev GoString := List UInt8

/-- The bytes (UTF-8) of a string literal of the source. -/
def utf8 (s : String) : GoString := s.data.flatMap String.utf8EncodeChar

/-! ## float64 -/

/-- An IEEE-754 binary64 value: NaN, an infinity, or the finite value
`(-1)^neg * m * 2^e` (`m < 2^53`, `-1074 ≤ e ≤ 971`, and `e = -1074` when
`m < 2^52`; the zeros are `m = 0`). -/
inductive F64 where
  | nan
  | inf (neg : Bool)
  | fin (neg : Bool) (m : Nat) (e : Int)
  deriving DecidableEq, Repr

/-- Number of binary digits of `n` (the fuel is any bound on it, such as `n`). -/
def bitLen : Nat → Nat → Nat
  | 0, _ => 0
  | fuel + 1, n => if n = 0 then 0 else bitLen fuel (n / 2) + 1

/-- The fraction `(n / d) * 2^e`, as numerator and denominator. -/
def scale2 (n d : Nat) (e : Int) : Nat × Nat :=
  if e < 0 then (n, d * 2 ^ e.natAbs) else (n * 2 ^ e.natAbs, d)

/-- Round the non-negative rational `n / d` (`d ≠ 0`) to the nearest binary64
value, ties to even; a value beyond the largest finite one becomes an
infinity. -/
def roundFrac (neg : Bool) (n d : Nat) : F64 :=
  if n = 0 then .fin neg 0 (-1074) else
  let l : Int := (bitLen n n : Int) - (bitLen d d : Int)
  let p := scale2 n d (-l)
  let fl : Int := if p.2 ≤ p.1 then l else l - 1
  let e : Int := max (fl - 52) (-1074)
  let q := scale2 n d (-e)
  let m0 := q.1 / q.2
  let r := q.1 % q.2
  let m1 := if q.2 < 2 * r ∨ (2 * r = q.2 ∧ m0 % 2 = 1) then m0 + 1 else m0
  let m := if m1 = 2 ^ 53 then 2 ^ 52 else m1
  let e1 := if m1 = 2 ^ 53 then e + 1 else e
  if 971 < e1 then .inf neg else .fin neg m e1

namespace F64

/-- The float64 of a natural number. -/
def ofNat (n : Nat) : F64 := roundFrac false n 1

/-- Whether the float64 is a zero (the Go test `x == 0`). -/
def isZero : F64 → Bool
  | .fin _ 0 _ => true
  | _ => false

/-- The integer `n` with the sign `neg`. -/
def signed (neg : Bool) (n : Nat) : Int := if neg then -(n : Int) else (n : Int)

/-- Go `-x` on float64. -/
def neg : F64 → F64
  | .nan => .nan
  | .inf s => .inf (!s)
  | .fin s m e => .fin (!s) m e

/-- Go `l + r` on float64. -/
def add : F64 → F64 → F64
  | .nan, _ => .nan
  | _, .nan => .nan
  | .inf a, .inf b => if a = b then .inf a else .nan
  | .inf a, .fin _ _ _ => .inf a
  | .fin _ _ _, .inf b => .inf b
  | .fin s1 m1 e1, .fin s2 m2 e2 =>
    let e := min e1 e2
    let a : Int := signed s1 (m1 * 2 ^ (e1 - e).toNat)
    let b : Int := signed s2 (m2 * 2 ^ (e2 - e).toNat)
    let s := a + b
    if s = 0 then .fin (s1 && s2) 0 (-1074)
    else
      let q := scale2 s.natAbs 1 e
      roundFrac (decide (s < 0)) q.1 q.2

/-- Go `l - r` on float64. -/
def sub (x y : F64) : F64 := add x (neg y)

/-- Go `l * r` on float64. -/
def mul : F64 → F64 → F64
  | .nan, _ => .nan
  | _, .nan => .nan
  | .inf a, .inf b => .inf (xor a b)
  | .inf a, .fin b m _ => if m = 0 then .nan else .inf (xor a b)
  | .fin a m _, .inf b => if m = 0 then .nan else .inf (xor a b)
  | .fin s1 m1 e1, .fin s2 m2 e2 =>
    let q := scale2 (m1 * m2) 1 (e1 + e2)
    roundFrac (xor s1 s2) q.1 q.2

/-- Go `l / r` on float64. -/
def div : F64 → F64 → F64
  | .nan, _ => .nan
  | _, .nan => .nan
  | .inf _, .inf _ => .nan
  | .inf a, .fin b _ _ => .inf (xor a b)
  | .fin a _ _, .inf b => .fin (xor a b) 0 (-1074)
  | .fin s1 m1 e1, .fin s2 m2 e2 =>
    if m2 = 0 then (if m1 = 0 then .nan else .inf (xor s1 s2))
    else
      let q := scale2 m1 m2 (e1 - e2)
      roundFrac (xor s1 s2) q.1 q.2

end F64

/-! ## strconv.ParseFloat -/

def isDigit (c : UInt8) : Bool := 48 ≤ c.toNat && c.toNat ≤ 57

/-- Go `lower(c)`, which sets bit 5 of the byte. -/
def lower (c : UInt8) : UInt8 := c ||| 32

def isHexLetter (c : UInt8) : Bool := 97 ≤ (lower c).toNat && (lower c).toNat ≤ 102

/-- Lower-case an ASCII capital, as `commonPrefixLenIgnoreCase` does. -/
def foldCase (c : UInt8) : UInt8 := if 65 ≤ c.toNat ∧ c.toNat ≤ 90 then c + 32 else c

/-- The result of `special` when it consumes the whole string: `NaN`, and the
possibly signed `Inf` and `Infinity`, in any case. -/
def special (s : GoString) : Option F64 :=
  let isInf (t : GoString) : Bool :=
    t.map foldCase = utf8 "inf" || t.map foldCase = utf8 "infinity"
  match s with
  | [] => none
  | c :: cs =>
    if c = 43 then (if isInf cs then some (.inf false) else none)
    else if c = 45 then (if isInf cs then some (.inf true) else none)
    else if isInf s then some (.inf false)
    else if s.map foldCase = utf8 "nan" then some .nan
    else none

/-- What `readFloat` has read of the mantissa. -/
structure Mantissa where
  value : Nat := 0
  frac : Nat := 0
  sawdot : Bool := false
  sawdigits : Bool := false

def Mantissa.push (st : Mantissa) (base digit : Nat) : Mantissa :=
  { st with value := st.value * base + digit, sawdigits := true,
            frac := if st.sawdot then st.frac + 1 else st.frac }

/-- The digit loop of `readFloat`: returns the mantissa and the unread rest. -/
def readMantissa (hex : Bool) : GoString → Mantissa → Mantissa × GoString
  | [], st => (st, [])
  | c :: cs, st =>
    if c = 95 then readMantissa hex cs st
    else if c = 46 then
      if st.sawdot then (st, c :: cs) else readMantissa hex cs { st with sawdot := true }
    else if isDigit c then
      readMantissa hex cs (st.push (if hex then 16 else 10) (c.toNat - 48))
    else if hex && isHexLetter c then
      readMantissa hex cs (st.push 16 ((lower c).toNat - 97 + 10))
    else (st, c :: cs)

/-- The exponent digit loop of `readFloat`: digits and underscores, the value
no longer growing once it has reached 10000; returns the unread rest. -/
def readExpDigits : GoString → Nat → Nat × GoString
  | [], e => (e, [])
  | c :: cs, e =>
    if c = 95 then readExpDigits cs e
    else if isDigit c then readExpDigits cs (if e < 10000 then e * 10 + (c.toNat - 48) else e)
    else (e, c :: cs)

/-- The optional exponent of `readFloat`: `none` when it is malformed, else the
signed exponent and the unread rest. -/
def readExponent (hex : Bool) (s : GoString) : Option (Int × GoString) :=
  match s with
  | c :: cs =>
    if lower c = (if hex then 112 else 101) then
      match cs with
      | [] => none
      | d :: ds =>
        let neg := d = 45
        let r := if d = 43 ∨ d = 45 then ds else d :: ds
        match r with
        | [] => none
        | x :: _ =>
          if isDigit x then
            let p := readExpDigits r 0
            some (if neg then -(p.1 : Int) else (p.1 : Int), p.2)
          else none
    else if hex then none else some (0, s)
  | [] => if hex then none else some (0, [])

/-- Go `underscoreOK`: underscores only between digits, or between a base
prefix and a digit. -/
def underscoreOK (s : GoString) : Bool :=
  let s1 := match s with
    | c :: cs => if c = 45 ∨ c = 43 then cs else s
    | [] => s
  let pre : Bool := match s1 with
    | a :: b :: _ => a = 48 && (lower b = 98 || lower b = 111 || lower b = 120)
    | _ => false
  let hex : Bool := match s1 with
    | _ :: b :: _ => pre && lower b = 120
    | _ => false
  let body := if pre then s1.drop 2 else s1
  -- saw: 0 for the start, 1 for a digit or base prefix, 2 for an underscore, 3 for the rest
  let rec go : GoString → Nat → Bool
    | [], saw => saw != 2
    | c :: cs, saw =>
      if isDigit c || (hex && isHexLetter c) then go cs 1
      else if c = 95 then (if saw != 1 then false else go cs 2)
      else if saw = 2 then false
      else go cs 3
  go body (if pre then 1 else 0)

/-- Go `strconv.ParseFloat(s, 64)`: the value and whether the error is nil.
A well-formed string gives the nearest float64 (ties to even); a value out of
range gives an infinity with an error, a malformed string gives 0 with an
error. -/
def ParseFloat (s : GoString) : F64 × Bool :=
  match special s with
  | some v => (v, true)
  | none =>
    let neg : Bool := match s with
      | c :: _ => c = 45
      | [] => false
    let s1 := match s with
      | c :: cs => if c = 43 ∨ c = 45 then cs else s
      | [] => s
    let hex : Bool := match s1 with
      | a :: b :: _ :: _ => a = 48 && lower b = 120
      | _ => false
    let s2 := if hex then s1.drop 2 else s1
    let p := readMantissa hex s2 {}
    if !p.1.sawdigits then (.fin false 0 (-1074), false) else
    match readExponent hex p.2 with
    | none => (.fin false 0 (-1074), false)
    | some (e, rest) =>
      if rest ≠ [] ∨ !underscoreOK s then (.fin false 0 (-1074), false) else
      let v :=
        if hex then
          let q := scale2 p.1.value 1 (e - 4 * (p.1.frac : Int))
          roundFrac neg q.1 q.2
        else
          let x : Int := e - (p.1.frac : Int)
          if x < 0 then roundFrac neg p.1.value (10 ^ x.natAbs)
          else roundFrac neg (p.1.value * 10 ^ x.natAbs) 1
      match v with
      | .inf _ => (v, false)
      | _ => (v, true)

/-! ## strconv.FormatFloat and the verb %v of fmt -/

/-- Decimal digits of `n`, most significant first (none for 0); the fuel is
any bound on their number, such as `n`. -/
def decDigits : Nat → Nat → List Nat
  | 0, _ => []
  | fuel + 1, n => if n = 0 then [] else decDigits fuel (n / 10) ++ [n % 10]

def stripZeros (ds : List Nat) : List Nat := (ds.reverse.dropWhile (· = 0)).reverse

/-- The fraction `(n / d) * 10^k`, as numerator and denominator. -/
def scale10 (n d : Nat) (k : Int) : Nat × Nat :=
  if k < 0 then (n, d * 10 ^ k.natAbs) else (n * 10 ^ k.natAbs, d)

/-- The candidates with `nd` digits for the positive value `n / d = m * 2^e`
whose integer part has `dp` digits (counted from the first non-zero one): the
multiple of `10^(dp - nd)` just below and just above it, kept when it reads
back as the same float64, the nearer one first and, when the value is exactly
half way between the two, the even one first. -/
def candidates (m : Nat) (e : Int) (n d : Nat) (dp : Int) (nd : Nat) : List Nat :=
  let q := scale10 n d ((nd : Int) - dp)
  let lo := q.1 / q.2
  let r := q.1 % q.2
  let back (c : Nat) : Bool :=
    let p := scale10 c 1 (dp - (nd : Int))
    roundFrac false p.1 p.2 = .fin false m e
  let both :=
    if 2 * r < q.2 ∨ (2 * r = q.2 ∧ lo % 2 = 0) then [lo, lo + 1] else [lo + 1, lo]
  both.filter back

/-- The shortest digit string that reads back as the finite non-zero float64
`m * 2^e`, nearest to it among the shortest: the loop tries 1, 2, ... digits
(17 always suffice for a float64, so the loop ends on a candidate). -/
def shortestFrom (m : Nat) (e : Int) (n d : Nat) (dp : Int) : Nat → Nat → List Nat × Int
  | 0, _ => ([], dp)
  | fuel + 1, nd =>
    match candidates m e n d dp nd with
    | c :: _ =>
      let ds := decDigits c c
      (stripZeros ds, dp - (nd : Int) + (ds.length : Int))
    | [] => shortestFrom m e n d dp fuel (nd + 1)

/-- The digits and the position of the decimal point (the value is
`0.d1d2... * 10^dp`) that `FormatFloat` with precision -1 uses; no digits for
a zero. -/
def shortest (m : Nat) (e : Int) : List Nat × Int :=
  if m = 0 then ([], 0) else
  let p := scale2 m 1 e
  -- the number of digits of the integer part, or minus the number of zeros after the point
  let ip := p.1 / p.2
  let dp : Int :=
    if ip ≠ 0 then ((decDigits ip ip).length : Int)
    else
      -- 10^(-k-1) ≤ x < 10^(-k): count by the digits of floor(1/x)
      let inv := p.2 / p.1
      let k := (decDigits inv inv).length
      if p.2 = p.1 * 10 ^ (k - 1) then -((k : Int) - 2) else -((k : Int) - 1)
  shortestFrom m e p.1 p.2 dp 17 1

def digitByte (d : Nat) : UInt8 := UInt8.ofNat (48 + d)

/-- Go `fmtF`: `%f` layout with `prec` digits after the point. -/
def fmtF (neg : Bool) (ds : List Nat) (dp : Int) (prec : Nat) : GoString :=
  (if neg then [45] else []) ++
  (if 0 < dp then (List.range dp.toNat).map (fun i => digitByte (ds.getD i 0)) else [48]) ++
  (if 0 < prec then
    46 :: (List.range prec).map (fun i =>
      let j : Int := dp + (i : Int)
      digitByte (if 0 ≤ j then ds.getD j.toNat 0 else 0))
   else [])

/-- Go `fmtE`: `%e` layout with `prec` digits after the point. -/
def fmtE (neg : Bool) (ds : List Nat) (dp : Int) (prec : Nat) : GoString :=
  let exp : Int := if ds = [] then 0 else dp - 1
  let a := exp.natAbs
  (if neg then [45] else []) ++
  [digitByte (ds.getD 0 0)] ++
  (if 0 < prec then 46 :: (List.range prec).map (fun i => digitByte (ds.getD (i + 1) 0)) else []) ++
  [101, if exp < 0 then 45 else 43] ++
  (if a < 10 then [48, digitByte a]
   else if a < 100 then [digitByte (a / 10), digitByte (a % 10)]
   else [digitByte (a / 100), digitByte (a / 10 % 10), digitByte (a % 10)])

/-- Go `strconv.FormatFloat` with format f, precision -1 and 64 bits. -/
def FormatFloat_f (v : F64) : GoString :=
  match v with
  | .nan => utf8 "NaN"
  | .inf false => utf8 "+Inf"
  | .inf true => utf8 "-Inf"
  | .fin neg m e =>
    let p := shortest m e
    fmtF neg p.1 p.2 ((p.1.length : Int) - p.2).toNat

/-- Go `fmt.Sprintf("%v", v)` for a float64 `v`: `%g` with the shortest
digits, the exponent form when the exponent is below -4 or at least 6. -/
def Sprintf_v_float (v : F64) : GoString :=
  match v with
  | .nan => utf8 "NaN"
  | .inf false => utf8 "+Inf"
  | .inf true => utf8 "-Inf"
  | .fin neg m e =>
    let p := shortest m e
    let exp := p.2 - 1
    if exp < -4 ∨ 6 ≤ exp then fmtE neg p.1 p.2 (p.1.length - 1)
    else fmtF neg p.1 p.2 ((p.1.length : Int) - p.2).toNat

/-! ## Tokens and the lexer -/

inductive TokenType where
  | TOKEN_NUMBER
  | TOKEN_STRING
  | TOKEN_PLUS
  | TOKEN_MINUS
  | TOKEN_TIMES
  | TOKEN_DIVIDED_BY
  | TOKEN_ASSIGN
  | TOKEN_REMEMBER
  | TOKEN_AS
  | TOKEN_IDENTIFIER
  | TOKEN_SAY
  | TOKEN_EOF
  | TOKEN_HELP
  deriving DecidableEq, Repr

open TokenType

/-- The struct `Token`; the field `Type` of the source is `Typ` here. -/
structure Token where
  Typ : TokenType
  Value : GoString
  deriving DecidableEq, Repr

/-- The zero value `Token{}`. -/
def Token.zero : Token := ⟨TOKEN_NUMBER, []⟩

def tokenFromString (s : GoString) : Token :=
  if s = utf8 "+" then ⟨TOKEN_PLUS, utf8 "plus"⟩
  else if s = utf8 "-" then ⟨TOKEN_MINUS, utf8 "minus"⟩
  else if s = utf8 "say" then ⟨TOKEN_SAY, s⟩
  else if s = utf8 "plus" then ⟨TOKEN_PLUS, s⟩
  else if s = utf8 "minus" then ⟨TOKEN_MINUS, s⟩
  else if s = utf8 "times" then ⟨TOKEN_TIMES, s⟩
  else if s = utf8 "*" then ⟨TOKEN_TIMES, s⟩
  else if s = utf8 "over" then ⟨TOKEN_DIVIDED_BY, s⟩
  else if s = utf8 "/" then ⟨TOKEN_DIVIDED_BY, s⟩
  else if s = utf8 "by" then ⟨TOKEN_IDENTIFIER, s⟩
  else if s = utf8 "remember" then ⟨TOKEN_REMEMBER, s⟩
  else if s = utf8 "as" then ⟨TOKEN_AS, s⟩
  else if (ParseFloat s).2 then ⟨TOKEN_NUMBER, s⟩
  else ⟨TOKEN_IDENTIFIER, s⟩

/-- Go `string(char)` for a byte `char`: the UTF-8 encoding of the code
point whose number is the byte. -/
def byteToString (char : UInt8) : GoString :=
  if char.toNat < 128 then [char]
  else [(192 : UInt8) ||| (char >>> 6), (128 : UInt8) ||| (char &&& 63)]

/-- The local variables of `lex`. -/
structure LexState where
  tokens : List Token := []
  inQuotes : Bool := false
  currentToken : GoString := []
  deriving DecidableEq, Repr

/-- The tokens after the step `if currentToken != ""` that appends
`tokenFromString(currentToken)`. -/
def flush (st : LexState) : List Token :=
  if st.currentToken ≠ [] then st.tokens ++ [tokenFromString st.currentToken] else st.tokens

/-- One round of the loop of `lex`, on the byte `char`. -/
def lexStep (st : LexState) (char : UInt8) : LexState :=
  if char = 34 then
    if st.inQuotes then
      { tokens := st.tokens ++ [⟨TOKEN_STRING, st.currentToken⟩], inQuotes := false,
        currentToken := [] }
    else { st with inQuotes := true }
  else if st.inQuotes then
    { st with currentToken := st.currentToken ++ byteToString char }
  else if char = 32 then
    { st with tokens := flush st, currentToken := [] }
  else if char = 61 then
    { st with tokens := flush st ++ [⟨TOKEN_ASSIGN, utf8 "="⟩], currentToken := [] }
  else if char = 43 ∨ char = 45 then
    { st with tokens := flush st ++ [tokenFromString (byteToString char)], currentToken := [] }
  else
    { st with currentToken := st.currentToken ++ byteToString char }

def lex (input : GoString) : List Token :=
  flush (input.foldl lexStep {}) ++ [⟨TOKEN_EOF, []⟩]

/-! ## The syntax tree -/

/-- A value of the interface `Expression`: `nil`, or a pointer to one of the
four node structs. -/
inductive Expression where
  | nil
  | NumberLiteral (Token : Token) (Value : F64)
  | StringLiteral (Token : Token) (Value : GoString)
  | Identifier (Token : Token) (Value : GoString)
  | InfixExpression (Token : Token) (Left : Expression) (Operator : GoString)
      (Right : Expression)
  deriving DecidableEq, Repr

/-- A value of the interface `Statement` that `parse` builds: a pointer to one
of the two statement structs. -/
inductive Statement where
  | AssignmentStatement (Token : Token) (Name : GoString) (Value : Expression)
  | SayStatement (Token : Token) (Values : List Expression)
  deriving DecidableEq, Repr

/-! ## The parser -/

/-- How a run can fail to return: a run-time panic on an index out of range,
or a loop that is still running when the fuel of the model is used up. -/
inductive Fault where
  | indexOutOfRange
  | outOfFuel
  deriving DecidableEq, Repr

deriving instance DecidableEq for Except

/-- The read `tokens[i]`. -/
def tokenAt (tokens : List Token) (i : Nat) : Except Fault Token :=
  match tokens[i]? with
  | some t => .ok t
  | none => .error .indexOutOfRange

/-- The guarded test `i < len(tokens) && tokens[i].Type == ty`. -/
def typeAtIs (tokens : List Token) (i : Nat) (ty : TokenType) : Bool :=
  match tokens[i]? with
  | some t => t.Typ = ty
  | none => false

/-- The read `tokens[i-1]`. -/
def tokenBefore (tokens : List Token) (i : Nat) : Except Fault Token :=
  match i with
  | 0 => .error .indexOutOfRange
  | k + 1 => tokenAt tokens k

/-- The function `parseFactor`; the cursor `*i` is passed in and returned. -/
def parseFactor (tokens : List Token) (i : Nat) : Except Fault (Expression × Nat) := do
  let t ← tokenAt tokens i
  if t.Typ = TOKEN_NUMBER then
    pure (.NumberLiteral t (ParseFloat t.Value).1, i + 1)
  else if t.Typ = TOKEN_STRING then
    pure (.StringLiteral t t.Value, i + 1)
  else if t.Typ = TOKEN_IDENTIFIER then
    pure (.Identifier t t.Value, i + 1)
  else
    pure (.nil, i)

/-- The loop of `parseTerm`. Every round moves the cursor forward and needs
`*i < len(tokens)-1`, so the loop makes fewer than `len(tokens)` rounds;
`gas` bounds the rounds that are left. -/
def parseTermLoop (tokens : List Token) :
    Nat → Expression → Nat → Except Fault (Expression × Nat)
  | 0, expr, i => pure (expr, i)
  | gas + 1, expr, i =>
    if i + 1 < tokens.length then do
      let t ← tokenAt tokens i
      if t.Typ = TOKEN_TIMES ∨ t.Typ = TOKEN_DIVIDED_BY then
        let operator := t.Value
        let (right, j) ← parseFactor tokens (i + 1)
        let tok ← tokenBefore tokens j
        parseTermLoop tokens gas (.InfixExpression tok expr operator right) j
      else pure (expr, i)
    else pure (expr, i)

def parseTerm (tokens : List Token) (i : Nat) : Except Fault (Expression × Nat) := do
  let (expr, j) ← parseFactor tokens i
  parseTermLoop tokens tokens.length expr j

/-- The loop of `parseExpression`, with `gas` as in `parseTermLoop`. -/
def parseExpressionLoop (tokens : List Token) :
    Nat → Expression → Nat → Except Fault (Expression × Nat)
  | 0, expr, i => pure (expr, i)
  | gas + 1, expr, i =>
    if i + 1 < tokens.length then do
      let t ← tokenAt tokens i
      if t.Typ = TOKEN_PLUS ∨ t.Typ = TOKEN_MINUS ∨
          t.Value = utf8 "plus" ∨ t.Value = utf8 "minus" then
        let operator := t.Value
        let (right, j) ← parseTerm tokens (i + 1)
        let tok ← tokenBefore tokens j
        parseExpressionLoop tokens gas (.InfixExpression tok expr operator right) j
      else pure (expr, i)
    else pure (expr, i)

def parseExpression (tokens : List Token) (i : Nat) : Except Fault (Expression × Nat) := do
  let (expr, j) ← parseTerm tokens i
  parseExpressionLoop tokens tokens.length expr j

def parseAssignStatement (tokens : List Token) (i : Nat) : Except Fault (Statement × Nat) := do
  let t ← tokenAt tokens i
  let (value, j) ← parseExpression tokens (i + 2)
  pure (.AssignmentStatement t t.Value value, j)

def parseRememberStatement (tokens : List Token) (i : Nat) : Except Fault (Statement × Nat) := do
  let t ← tokenAt tokens i
  if typeAtIs tokens (i + 1) TOKEN_IDENTIFIER then
    let n ← tokenAt tokens (i + 1)
    if typeAtIs tokens (i + 2) TOKEN_AS then
      let (value, j) ← parseExpression tokens (i + 3)
      pure (.AssignmentStatement t n.Value value, j)
    else pure (.AssignmentStatement t n.Value .nil, i + 2)
  else pure (.AssignmentStatement t [] .nil, i + 1)

/-- The loop of `parseSayStatement`: it need not end, so it runs on fuel, one
unit a round. -/
def parseSayLoop (tokens : List Token) :
    Nat → List Expression → Nat → Except Fault (List Expression × Nat)
  | 0, values, i => if i + 1 < tokens.length then .error .outOfFuel else pure (values, i)
  | fuel + 1, values, i =>
    if i + 1 < tokens.length then do
      let (expr, j) ← parseExpression tokens i
      parseSayLoop tokens fuel (values ++ [expr]) j
    else pure (values, i)

def parseSayStatement (fuel : Nat) (tokens : List Token) (i : Nat) :
    Except Fault (Statement × Nat) := do
  let t ← tokenAt tokens i
  let (values, j) ← parseSayLoop tokens fuel [] (i + 1)
  pure (.SayStatement t values, j)

/-- The loop of `parse`: it need not end, so it runs on fuel, one unit a round. -/
def parseLoop (tokens : List Token) :
    Nat → List Statement → Nat → Except Fault (List Statement)
  | 0, statements, i => if i + 1 < tokens.length then .error .outOfFuel else pure statements
  | fuel + 1, statements, i =>
    if i + 1 < tokens.length then do
      let t ← tokenAt tokens i
      if t.Typ = TOKEN_IDENTIFIER ∧ typeAtIs tokens (i + 1) TOKEN_ASSIGN then
        let (stmt, j) ← parseAssignStatement tokens i
        parseLoop tokens fuel (statements ++ [stmt]) j
      else if t.Typ = TOKEN_REMEMBER then
        let (stmt, j) ← parseRememberStatement tokens i
        parseLoop tokens fuel (statements ++ [stmt]) j
      else if t.Typ = TOKEN_SAY then
        let (stmt, j) ← parseSayStatement fuel tokens i
        parseLoop tokens fuel (statements ++ [stmt]) j
      else
        let (expr, j) ← parseExpression tokens i
        parseLoop tokens fuel (statements ++ [.AssignmentStatement Token.zero [] expr]) j
    else pure statements

/-- The function `parse`, on `fuel` rounds for each of its two loops that need
not end. -/
def parse (fuel : Nat) (tokens : List Token) : Except Fault (List Statement) :=
  parseLoop tokens fuel [] 0

/-! ## The interpreter -/

/-- A value of `interface{}` as the interpreter handles it: `nil`, a float64
or a string. -/
inductive Value where
  | nil
  | float64 (v : F64)
  | string (s : GoString)
  deriving DecidableEq, Repr

/-- The map `memory`: the value bound to each name, if any. -/
abbrev Store := GoString → Option Value

/-- The map `make(map[string]interface{})`. -/
def Store.empty : Store := fun _ => none

/-- The assignment `memory[name] = value`. -/
def Store.set (memory : Store) (name : GoString) (value : Value) : Store :=
  fun k => if k = name then some value else memory k

/-- Go `fmt.Sprintf("%v", value)`. -/
def Sprintf_v : Value → GoString
  | .nil => utf8 "<nil>"
  | .float64 v => Sprintf_v_float v
  | .string s => s

def toString : Value → GoString
  | .float64 v => FormatFloat_f v
  | .string s => s
  | .nil => Sprintf_v .nil

/-- The function `evalExpression`, reading the map `memory`. -/
def evalExpression (memory : Store) : Expression → Value
  | .NumberLiteral _ v => .float64 v
  | .StringLiteral _ v => .string v
  | .Identifier _ name =>
    match memory name with
    | some value => value
    | none => .string (utf8 "<" ++ name ++ utf8 ">")
  | .InfixExpression _ l op r =>
    let left := evalExpression memory l
    let right := evalExpression memory r
    let concat := Value.string (toString left ++ toString right)
    match left, right with
    | .float64 l, .float64 r =>
      if op = utf8 "plus" ∨ op = utf8 "+" then .float64 (F64.add l r)
      else if op = utf8 "minus" ∨ op = utf8 "-" then .float64 (F64.sub l r)
      else if op = utf8 "times" ∨ op = utf8 "*" then .float64 (F64.mul l r)
      else if op = utf8 "over" then
        if !r.isZero then .float64 (F64.div l r) else .string (utf8 "Error: Division by zero")
      else concat
    | _, _ => concat
  | .nil => .nil

/-- The loop of `interpret` from the statement list on, with the variable
`result` and the map `memory` passed in and returned. -/
def interpretLoop (memory : Store) (result : Value) : List Statement → Value × Store
  | [] => (result, memory)
  | .AssignmentStatement _ name value :: rest =>
    let v := evalExpression memory value
    interpretLoop (if name ≠ [] then memory.set name v else memory) v rest
  | .SayStatement _ values :: rest =>
    let output := values.foldl (fun out expr => out ++ Sprintf_v (evalExpression memory expr)) []
    interpretLoop memory (.string output) rest

/-- The function `interpret`: its result and the map `memory` afterwards. -/
def interpret (memory : Store) (statements : List Statement) : Value × Store :=
  interpretLoop memory .nil statements

/-- The function `evaluateBubble`, the one-shot entry point, on the source line
`input`: `lex`, `parse`, `interpret`. -/
def evaluateBubble (fuel : Nat) (memory : Store) (input : GoString) :
    Except Fault (Value × Store) := do
  let statements ← parse fuel (lex input)
  pure (interpret memory statements)

/-! ## Notions used to state the theorems -/

/-- The common shape of the loops of `parseTerm` and `parseExpression`: while
the cursor is before the last token and the token under it is an operator
(`isOp`), read the right operand (`operand`) and build the infix node. -/
def infixLoop (tokens : List Token) (isOp : Token → Bool)
    (operand : Nat → Except Fault (Expression × Nat)) :
    Nat → Expression → Nat → Except Fault (Expression × Nat)
  | 0, expr, i => pure (expr, i)
  | gas + 1, expr, i =>
    if i + 1 < tokens.length then do
      let t ← tokenAt tokens i
      if isOp t then
        let (right, j) ← operand (i + 1)
        let tok ← tokenBefore tokens j
        infixLoop tokens isOp operand gas (.InfixExpression tok expr t.Value right) j
      else pure (expr, i)
    else pure (expr, i)

/-- The operator test of the loop of `parseTerm`. -/
def isTermOp (t : Token) : Bool :=
  decide (t.Typ = TokenType.TOKEN_TIMES ∨ t.Typ = TokenType.TOKEN_DIVIDED_BY)

/-- The operator test of the loop of `parseExpression`. -/
def isExprOp (t : Token) : Bool :=
  decide (t.Typ = TokenType.TOKEN_PLUS ∨ t.Typ = TokenType.TOKEN_MINUS ∨
    t.Value = utf8 "plus" ∨ t.Value = utf8 "minus")

/-- The node that `parseFactor` builds from a token of kind Number, String or
Identifier. -/
def factorNode (t : Token) : Expression :=
  if t.Typ = TokenType.TOKEN_NUMBER then .NumberLiteral t (ParseFloat t.Value).1
  else if t.Typ = TokenType.TOKEN_STRING then .StringLiteral t t.Value
  else if t.Typ = TokenType.TOKEN_IDENTIFIER then .Identifier t t.Value
  else .nil

/-- The token has kind Number, String or Identifier. -/
def isFactorToken (t : Token) : Bool :=
  decide (t.Typ = TokenType.TOKEN_NUMBER ∨ t.Typ = TokenType.TOKEN_STRING ∨
    t.Typ = TokenType.TOKEN_IDENTIFIER)

/-- A result with its cursor moved `a` tokens to the right. -/
def shiftCursor {α : Type} (a : Nat) (r : Except Fault (α × Nat)) : Except Fault (α × Nat) :=
  r.map (fun p => (p.1, a + p.2))

/-- The token slice is not empty and its last token has kind EndOfInput. -/
def EndsWithEOF (tokens : List Token) : Prop :=
  ∃ t, tokens.getLast? = some t ∧ t.Typ = TokenType.TOKEN_EOF

/-- The texts `vs` joined with single spaces, as the idempotence property of
the specification words it. -/
def joinSpaces : List GoString → GoString
  | [] => []
  | [v] => v
  | v :: w :: vs => v ++ [32] ++ joinSpaces (w :: vs)

/-- The three ways in which `lex` makes a token before the final one: a String
token on a closing quote, the Assign token on `=`, and `tokenFromString` on
a flushed buffer or on `+` and `-`. -/
def LexToken (t : Token) : Prop :=
  t.Typ = TokenType.TOKEN_STRING ∨ t = ⟨TokenType.TOKEN_ASSIGN, utf8 "="⟩ ∨
    ∃ w, t = tokenFromString w

/-- A byte that `lex` appends to the buffer as it is, outside quotes: an ASCII
byte other than the double quote, the space, `=`, `+` and `-`. -/
def plainByte (c : UInt8) : Prop :=
  c.toNat < 128 ∧ c ≠ 34 ∧ c ≠ 32 ∧ c ≠ 61 ∧ c ≠ 43 ∧ c ≠ 45

instance (c : UInt8) : Decidable (plainByte c) := by
  unfold plainByte
  infer_instance

/-- A token that `lex` makes again from its own text followed by a space. -/
def Relexes (t : Token) : Prop :=
  ∀ toks : List Token,
    (t.Value ++ [32]).foldl lexStep ⟨toks, false, []⟩ = ⟨toks ++ [t], false, []⟩

/-! ## Reads of the token slice -/

theorem bind_ok {α β : Type} (x : α) (f : α → Except Fault β) :
    (Except.ok x >>= f) = f x := rfl

theorem bind_error {α β : Type} (err : Fault) (f : α → Except Fault β) :
    ((Except.error err : Except Fault α) >>= f) = Except.error err := rfl

theorem pure_eq_ok {α : Type} (x : α) : (pure x : Except Fault α) = Except.ok x := rfl

theorem tokenAt_of_lt {tokens : List Token} {i : Nat} (h : i < tokens.length) :
    tokenAt tokens i = .ok tokens[i] := by
  unfold tokenAt
  simp [List.getElem?_eq_getElem h]

theorem tokenAt_of_le {tokens : List Token} {i : Nat} (h : tokens.length ≤ i) :
    tokenAt tokens i = .error .indexOutOfRange := by
  unfold tokenAt
  simp [List.getElem?_eq_none h]

theorem tokenBefore_succ (tokens : List Token) (i : Nat) :
    tokenBefore tokens (i + 1) = tokenAt tokens i := rfl

/-! ## The cursor only moves forward -/

theorem parseFactor_of_lt {tokens : List Token} {i : Nat} (h : i < tokens.length) :
    parseFactor tokens i =
      if tokens[i].Typ = TOKEN_NUMBER then
        .ok (.NumberLiteral tokens[i] (ParseFloat tokens[i].Value).1, i + 1)
      else if tokens[i].Typ = TOKEN_STRING then .ok (.StringLiteral tokens[i] tokens[i].Value, i + 1)
      else if tokens[i].Typ = TOKEN_IDENTIFIER then .ok (.Identifier tokens[i] tokens[i].Value, i + 1)
      else .ok (.nil, i) := by
  unfold parseFactor
  rw [tokenAt_of_lt h]
  rfl

theorem parseFactor_of_le {tokens : List Token} {i : Nat} (h : tokens.length ≤ i) :
    parseFactor tokens i = .error .indexOutOfRange := by
  unfold parseFactor
  rw [tokenAt_of_le h]
  rfl

theorem parseFactor_cursor {tokens : List Token} {i j : Nat} {e : Expression}
    (h : parseFactor tokens i = .ok (e, j)) : i ≤ j ∧ j ≤ i + 1 ∧ i < tokens.length := by
  by_cases hi : i < tokens.length
  · rw [parseFactor_of_lt hi] at h
    split_ifs at h <;> cases h <;> omega
  · rw [parseFactor_of_le (Nat.le_of_not_lt hi)] at h
    cases h

/-! ## The two operator loops -/

theorem parseTermLoop_eq (tokens : List Token) :
    ∀ (gas : Nat) (e : Expression) (i : Nat),
      parseTermLoop tokens gas e i = infixLoop tokens isTermOp (parseFactor tokens) gas e i := by
  intro gas
  induction gas with
  | zero => intro e i; rfl
  | succ gas ih =>
    intro e i
    simp only [parseTermLoop, infixLoop, isTermOp, ih, decide_eq_true_eq]

theorem parseExpressionLoop_eq (tokens : List Token) :
    ∀ (gas : Nat) (e : Expression) (i : Nat),
      parseExpressionLoop tokens gas e i =
        infixLoop tokens isExprOp (parseTerm tokens) gas e i := by
  intro gas
  induction gas with
  | zero => intro e i; rfl
  | succ gas ih =>
    intro e i
    simp only [parseExpressionLoop, infixLoop, isExprOp, ih, decide_eq_true_eq]

theorem infixLoop_done {tokens : List Token} {isOp : Token → Bool}
    {operand : Nat → Except Fault (Expression × Nat)} (gas : Nat) (e : Expression) {i : Nat}
    (h : tokens.length ≤ i + 1) : infixLoop tokens isOp operand gas e i = .ok (e, i) := by
  cases gas with
  | zero => rfl
  | succ gas =>
    rw [infixLoop, if_neg (by omega)]
    rfl

theorem infixLoop_stop {tokens : List Token} {isOp : Token → Bool}
    {operand : Nat → Except Fault (Expression × Nat)} (gas : Nat) (e : Expression) {i : Nat}
    (hi : i < tokens.length) (h : isOp tokens[i] = false) :
    infixLoop tokens isOp operand gas e i = .ok (e, i) := by
  cases gas with
  | zero => rfl
  | succ gas =>
    rw [infixLoop]
    split_ifs with hlen
    · rw [tokenAt_of_lt hi, bind_ok, h]
      rfl
    · rfl

/-- The cursor of an operator loop only moves forward, when the cursor of its
operand parser does. -/
theorem infixLoop_cursor {tokens : List Token} {isOp : Token → Bool}
    {operand : Nat → Except Fault (Expression × Nat)}
    (hop : ∀ k e j, operand k = .ok (e, j) → k ≤ j) :
    ∀ (gas : Nat) (e : Expression) (i : Nat) (e' : Expression) (j : Nat),
      infixLoop tokens isOp operand gas e i = .ok (e', j) → i ≤ j := by
  intro gas
  induction gas with
  | zero =>
    intro e i e' j h
    cases h
    exact Nat.le_refl _
  | succ gas ih =>
    intro e i e' j h
    rw [infixLoop] at h
    split_ifs at h with hlen
    · rw [tokenAt_of_lt (by omega), bind_ok] at h
      split_ifs at h with hisop
      · cases hf : operand (i + 1) with
        | error err => rw [hf, bind_error] at h; cases h
        | ok p =>
          obtain ⟨right, k⟩ := p
          rw [hf, bind_ok] at h
          have hk := hop _ _ _ hf
          cases ht : tokenBefore tokens k with
          | error err => simp only [ht, bind_error] at h; cases h
          | ok tok =>
            simp only [ht, bind_ok] at h
            have := ih _ _ _ _ h
            omega
      · cases h
        exact Nat.le_refl _
    · cases h
      exact Nat.le_refl _

/-- An operator loop makes fewer rounds than there are tokens after the
cursor: any two amounts of gas that cover them give the same result. -/
theorem infixLoop_gas {tokens : List Token} {isOp : Token → Bool}
    {operand : Nat → Except Fault (Expression × Nat)}
    (hop : ∀ k e j, operand k = .ok (e, j) → k ≤ j) :
    ∀ (g1 g2 : Nat) (e : Expression) (i : Nat),
      tokens.length ≤ g1 + i + 1 → tokens.length ≤ g2 + i + 1 →
      infixLoop tokens isOp operand g1 e i = infixLoop tokens isOp operand g2 e i := by
  intro g1
  induction g1 with
  | zero =>
    intro g2 e i h1 _
    rw [infixLoop_done 0 e (by omega), infixLoop_done g2 e (by omega)]
  | succ g1 ih =>
    intro g2 e i h1 h2
    cases g2 with
    | zero => rw [infixLoop_done (g1 + 1) e (by omega), infixLoop_done 0 e (by omega)]
    | succ g2 =>
      rw [infixLoop, infixLoop]
      by_cases hlen : i + 1 < tokens.length
      · simp only [if_pos hlen, tokenAt_of_lt (show i < tokens.length by omega), bind_ok]
        by_cases hisop : isOp tokens[i] = true
        · simp only [if_pos hisop]
          cases hf : operand (i + 1) with
          | error err => rfl
          | ok p =>
            obtain ⟨right, k⟩ := p
            have hk := hop _ _ _ hf
            simp only [bind_ok]
            cases ht : tokenBefore tokens k with
            | error err => rfl
            | ok tok =>
              simp only [bind_ok]
              exact ih g2 _ k (by omega) (by omega)
        · simp only [if_neg hisop]
      · simp only [if_neg hlen]

theorem parseTerm_cursor {tokens : List Token} {i j : Nat} {e : Expression}
    (h : parseTerm tokens i = .ok (e, j)) : i ≤ j := by
  unfold parseTerm at h
  cases hf : parseFactor tokens i with
  | error err => rw [hf, bind_error] at h; cases h
  | ok p =>
    obtain ⟨e0, k⟩ := p
    rw [hf, bind_ok] at h
    simp only [parseTermLoop_eq] at h
    have h1 := (parseFactor_cursor hf).1
    have h2 := infixLoop_cursor (fun k e j hk => (parseFactor_cursor hk).1) _ _ _ _ _ h
    omega

theorem parseExpression_cursor {tokens : List Token} {i j : Nat} {e : Expression}
    (h : parseExpression tokens i = .ok (e, j)) : i ≤ j := by
  unfold parseExpression at h
  cases hf : parseTerm tokens i with
  | error err => rw [hf, bind_error] at h; cases h
  | ok p =>
    obtain ⟨e0, k⟩ := p
    rw [hf, bind_ok] at h
    simp only [parseExpressionLoop_eq] at h
    have h1 := parseTerm_cursor hf
    have h2 := infixLoop_cursor (fun k e j hk => parseTerm_cursor hk) _ _ _ _ _ h
    omega

/-- The function `parseTerm` as its first factor followed by its loop, on any
gas that covers the tokens after the factor. -/
theorem parseTerm_eq (tokens : List Token) (i gas : Nat) (hg : tokens.length ≤ gas + i + 1) :
    parseTerm tokens i =
      parseFactor tokens i >>= fun p =>
        infixLoop tokens isTermOp (parseFactor tokens) gas p.1 p.2 := by
  unfold parseTerm
  cases hf : parseFactor tokens i with
  | error err => rfl
  | ok p =>
    obtain ⟨e0, k⟩ := p
    simp only [bind_ok, parseTermLoop_eq]
    have h1 := (parseFactor_cursor hf).1
    exact infixLoop_gas (fun k e j hk => (parseFactor_cursor hk).1) _ _ _ _ (by omega) (by omega)

theorem parseExpression_eq (tokens : List Token) (i gas : Nat)
    (hg : tokens.length ≤ gas + i + 1) :
    parseExpression tokens i =
      parseTerm tokens i >>= fun p =>
        infixLoop tokens isExprOp (parseTerm tokens) gas p.1 p.2 := by
  unfold parseExpression
  cases hf : parseTerm tokens i with
  | error err => rfl
  | ok p =>
    obtain ⟨e0, k⟩ := p
    simp only [bind_ok, parseExpressionLoop_eq]
    have h1 := parseTerm_cursor hf
    exact infixLoop_gas (fun k e j hk => parseTerm_cursor hk) _ _ _ _ (by omega) (by omega)

/-! ## More fuel does not change a result -/

theorem parseSayLoop_done {tokens : List Token} (fuel : Nat) (values : List Expression) {i : Nat}
    (h : tokens.length ≤ i + 1) : parseSayLoop tokens fuel values i = .ok (values, i) := by
  cases fuel with
  | zero => rw [parseSayLoop, if_neg (by omega)]; rfl
  | succ fuel => rw [parseSayLoop, if_neg (by omega)]; rfl

theorem parseLoop_done {tokens : List Token} (fuel : Nat) (statements : List Statement) {i : Nat}
    (h : tokens.length ≤ i + 1) : parseLoop tokens fuel statements i = .ok statements := by
  cases fuel with
  | zero => rw [parseLoop, if_neg (by omega)]; rfl
  | succ fuel => rw [parseLoop, if_neg (by omega)]; rfl

theorem parseSayLoop_fuel_succ {tokens : List Token} :
    ∀ (fuel : Nat) (values : List Expression) (i : Nat) (r : List Expression × Nat),
      parseSayLoop tokens fuel values i = .ok r →
      parseSayLoop tokens (fuel + 1) values i = .ok r := by
  intro fuel
  induction fuel with
  | zero =>
    intro values i r h
    rw [parseSayLoop] at h
    split_ifs at h with hlen
    rw [parseSayLoop_done _ _ (by omega)]
    exact h
  | succ fuel ih =>
    intro values i r h
    rw [parseSayLoop] at h
    rw [parseSayLoop]
    split_ifs at h with hlen
    · rw [if_pos hlen]
      cases hp : parseExpression tokens i with
      | error err => rw [hp, bind_error] at h; cases h
      | ok p =>
        rw [hp, bind_ok] at h
        rw [bind_ok]
        exact ih _ _ _ h
    · rw [if_neg hlen]
      exact h

theorem parseSayStatement_fuel_succ {tokens : List Token} {fuel i : Nat} {r : Statement × Nat}
    (h : parseSayStatement fuel tokens i = .ok r) :
    parseSayStatement (fuel + 1) tokens i = .ok r := by
  unfold parseSayStatement at h ⊢
  cases ht : tokenAt tokens i with
  | error err => rw [ht, bind_error] at h; cases h
  | ok t =>
    rw [ht, bind_ok] at h
    rw [bind_ok]
    cases hl : parseSayLoop tokens fuel [] (i + 1) with
    | error err => rw [hl, bind_error] at h; cases h
    | ok p =>
      rw [hl, bind_ok] at h
      rw [parseSayLoop_fuel_succ _ _ _ _ hl, bind_ok]
      exact h

theorem parseLoop_fuel_succ {tokens : List Token} :
    ∀ (fuel : Nat) (statements : List Statement) (i : Nat) (r : List Statement),
      parseLoop tokens fuel statements i = .ok r →
      parseLoop tokens (fuel + 1) statements i = .ok r := by
  intro fuel
  induction fuel with
  | zero =>
    intro statements i r h
    rw [parseLoop] at h
    split_ifs at h with hlen
    rw [parseLoop_done _ _ (by omega)]
    exact h
  | succ fuel ih =>
    intro statements i r h
    rw [parseLoop] at h
    rw [parseLoop]
    split_ifs at h with hlen
    · rw [if_pos hlen]
      cases ht : tokenAt tokens i with
      | error err => rw [ht, bind_error] at h; cases h
      | ok t =>
        rw [ht, bind_ok] at h
        rw [bind_ok]
        split_ifs at h ⊢ with h1 h2 h3
        · cases hp : parseAssignStatement tokens i with
          | error err => rw [hp, bind_error] at h; cases h
          | ok p =>
            rw [hp, bind_ok] at h
            rw [bind_ok]
            exact ih _ _ _ h
        · cases hp : parseRememberStatement tokens i with
          | error err => rw [hp, bind_error] at h; cases h
          | ok p =>
            rw [hp, bind_ok] at h
            rw [bind_ok]
            exact ih _ _ _ h
        · cases hp : parseSayStatement fuel tokens i with
          | error err => rw [hp, bind_error] at h; cases h
          | ok p =>
            rw [hp, bind_ok] at h
            rw [parseSayStatement_fuel_succ hp, bind_ok]
            exact ih _ _ _ h
        · cases hp : parseExpression tokens i with
          | error err => rw [hp, bind_error] at h; cases h
          | ok p =>
            rw [hp, bind_ok] at h
            rw [bind_ok]
            exact ih _ _ _ h
    · rw [if_neg hlen]
      exact h

/-- A run of `parse` that returns on some fuel returns the same on any larger fuel. -/
theorem parse_fuel_add {tokens : List Token} {fuel : Nat} {r : List Statement}
    (h : parse fuel tokens = .ok r) (extra : Nat) : parse (fuel + extra) tokens = .ok r := by
  induction extra with
  | zero => exact h
  | succ extra ih => exact parseLoop_fuel_succ _ _ _ _ ih

/-- A run of `evaluateBubble` that returns on some fuel returns the same on any larger fuel. -/
theorem evaluateBubble_fuel_add {memory : Store} {input : GoString} {fuel : Nat}
    {r : Value × Store} (h : evaluateBubble fuel memory input = .ok r) (extra : Nat) :
    evaluateBubble (fuel + extra) memory input = .ok r := by
  unfold evaluateBubble at h ⊢
  cases hp : parse fuel (lex input) with
  | error err => rw [hp, bind_error] at h; cases h
  | ok stmts =>
    rw [hp, bind_ok] at h
    rw [parse_fuel_add hp extra, bind_ok]
    exact h

/-! ## Index reads stay in bounds on a slice that ends with EndOfInput -/

theorem typeAtIs_eq_true {tokens : List Token} {i : Nat} {ty : TokenType}
    (h : typeAtIs tokens i ty = true) : ∃ hi : i < tokens.length, tokens[i].Typ = ty := by
  unfold typeAtIs at h
  by_cases hi : i < tokens.length
  · rw [List.getElem?_eq_getElem hi] at h
    exact ⟨hi, of_decide_eq_true h⟩
  · rw [List.getElem?_eq_none (Nat.le_of_not_lt hi)] at h
    cases h

theorem EndsWithEOF.pos {tokens : List Token} (h : EndsWithEOF tokens) : 0 < tokens.length := by
  obtain ⟨t, ht, _⟩ := h
  cases tokens with
  | nil => simp at ht
  | cons a l => simp

theorem EndsWithEOF.last {tokens : List Token} (h : EndsWithEOF tokens)
    (hi : tokens.length - 1 < tokens.length) : tokens[tokens.length - 1].Typ = TOKEN_EOF := by
  obtain ⟨t, ht, hty⟩ := h
  rw [List.getLast?_eq_getElem?, List.getElem?_eq_getElem hi] at ht
  cases ht
  exact hty

/-- A token that is not the EndOfInput one is not the last token. -/
theorem EndsWithEOF.succ_lt {tokens : List Token} (h : EndsWithEOF tokens) {i : Nat}
    (hi : i < tokens.length) (hty : tokens[i].Typ ≠ TOKEN_EOF) : i + 1 < tokens.length := by
  by_contra hlt
  have hlast : i = tokens.length - 1 := by omega
  subst hlast
  exact hty (h.last hi)

theorem parseFactor_inBounds {tokens : List Token} (h : EndsWithEOF tokens) {i : Nat}
    (hi : i < tokens.length) :
    ∃ e j, parseFactor tokens i = .ok (e, j) ∧ i ≤ j ∧ j < tokens.length := by
  rw [parseFactor_of_lt hi]
  split_ifs with h1 h2 h3
  · exact ⟨_, _, rfl, by omega, h.succ_lt hi (by rw [h1]; decide)⟩
  · exact ⟨_, _, rfl, by omega, h.succ_lt hi (by rw [h2]; decide)⟩
  · exact ⟨_, _, rfl, by omega, h.succ_lt hi (by rw [h3]; decide)⟩
  · exact ⟨_, _, rfl, Nat.le_refl _, hi⟩

theorem infixLoop_inBounds {tokens : List Token} {isOp : Token → Bool}
    {operand : Nat → Except Fault (Expression × Nat)}
    (hop : ∀ k, k < tokens.length →
      ∃ e j, operand k = .ok (e, j) ∧ k ≤ j ∧ j < tokens.length) :
    ∀ (gas : Nat) (e : Expression) (i : Nat), i < tokens.length →
      ∃ e' j, infixLoop tokens isOp operand gas e i = .ok (e', j) ∧ i ≤ j ∧ j < tokens.length := by
  intro gas
  induction gas with
  | zero =>
    intro e i hi
    exact ⟨e, i, rfl, Nat.le_refl _, hi⟩
  | succ gas ih =>
    intro e i hi
    rw [infixLoop]
    by_cases hlen : i + 1 < tokens.length
    · simp only [if_pos hlen, tokenAt_of_lt hi, bind_ok]
      by_cases hisop : isOp tokens[i] = true
      · simp only [if_pos hisop]
        obtain ⟨right, k, hk, hik, hklen⟩ := hop (i + 1) hlen
        obtain ⟨k', rfl⟩ : ∃ k', k = k' + 1 := ⟨k - 1, by omega⟩
        simp only [hk, bind_ok, tokenBefore_succ, tokenAt_of_lt (show k' < tokens.length by omega)]
        obtain ⟨e', j, hj, hkj, hjlen⟩ := ih (.InfixExpression tokens[k'] e tokens[i].Value right)
          (k' + 1) hklen
        exact ⟨e', j, hj, by omega, hjlen⟩
      · simp only [if_neg hisop]
        exact ⟨e, i, rfl, Nat.le_refl _, hi⟩
    · simp only [if_neg hlen]
      exact ⟨e, i, rfl, Nat.le_refl _, hi⟩

theorem parseTerm_inBounds {tokens : List Token} (h : EndsWithEOF tokens) {i : Nat}
    (hi : i < tokens.length) :
    ∃ e j, parseTerm tokens i = .ok (e, j) ∧ i ≤ j ∧ j < tokens.length := by
  unfold parseTerm
  obtain ⟨e0, k, hk, hik, hklen⟩ := parseFactor_inBounds h hi
  simp only [hk, bind_ok, parseTermLoop_eq]
  obtain ⟨e', j, hj, hkj, hjlen⟩ :=
    @infixLoop_inBounds tokens isTermOp (parseFactor tokens)
      (fun k hk => parseFactor_inBounds h hk) tokens.length e0 k hklen
  exact ⟨e', j, hj, by omega, hjlen⟩

theorem parseExpression_inBounds {tokens : List Token} (h : EndsWithEOF tokens) {i : Nat}
    (hi : i < tokens.length) :
    ∃ e j, parseExpression tokens i = .ok (e, j) ∧ i ≤ j ∧ j < tokens.length := by
  unfold parseExpression
  obtain ⟨e0, k, hk, hik, hklen⟩ := parseTerm_inBounds h hi
  simp only [hk, bind_ok, parseExpressionLoop_eq]
  obtain ⟨e', j, hj, hkj, hjlen⟩ :=
    @infixLoop_inBounds tokens isExprOp (parseTerm tokens)
      (fun k hk => parseTerm_inBounds h hk) tokens.length e0 k hklen
  exact ⟨e', j, hj, by omega, hjlen⟩

theorem parseAssignStatement_inBounds {tokens : List Token} (h : EndsWithEOF tokens) {i : Nat}
    (hi : i < tokens.length) (ha : typeAtIs tokens (i + 1) TOKEN_ASSIGN = true) :
    ∃ s j, parseAssignStatement tokens i = .ok (s, j) ∧ i + 2 ≤ j ∧ j < tokens.length := by
  obtain ⟨hi1, hty⟩ := typeAtIs_eq_true ha
  have hi2 : i + 2 < tokens.length := h.succ_lt hi1 (by rw [hty]; decide)
  obtain ⟨e, j, hj, hij, hjlen⟩ := parseExpression_inBounds h hi2
  unfold parseAssignStatement
  simp only [tokenAt_of_lt hi, bind_ok, hj]
  exact ⟨_, _, rfl, hij, hjlen⟩

theorem parseRememberStatement_inBounds {tokens : List Token} (h : EndsWithEOF tokens) {i : Nat}
    (hi : i + 1 < tokens.length) :
    ∃ s j, parseRememberStatement tokens i = .ok (s, j) ∧ i + 1 ≤ j ∧ j < tokens.length := by
  unfold parseRememberStatement
  simp only [tokenAt_of_lt (show i < tokens.length by omega), bind_ok]
  by_cases h1 : typeAtIs tokens (i + 1) TOKEN_IDENTIFIER = true
  · obtain ⟨hi1, hty1⟩ := typeAtIs_eq_true h1
    have hi2 : i + 2 < tokens.length := h.succ_lt hi1 (by rw [hty1]; decide)
    simp only [if_pos h1, tokenAt_of_lt hi1, bind_ok]
    by_cases h2 : typeAtIs tokens (i + 2) TOKEN_AS = true
    · obtain ⟨_, hty2⟩ := typeAtIs_eq_true h2
      have hi3 : i + 3 < tokens.length := h.succ_lt hi2 (by rw [hty2]; decide)
      obtain ⟨e, j, hj, hij, hjlen⟩ := parseExpression_inBounds h hi3
      simp only [if_pos h2, hj, bind_ok]
      exact ⟨_, _, rfl, by omega, hjlen⟩
    · simp only [if_neg h2]
      exact ⟨_, _, rfl, by omega, hi2⟩
  · simp only [if_neg h1]
    exact ⟨_, _, rfl, by omega, hi⟩

theorem parseSayLoop_inBounds {tokens : List Token} (h : EndsWithEOF tokens) :
    ∀ (fuel : Nat) (values : List Expression) (i : Nat), i < tokens.length →
      parseSayLoop tokens fuel values i = .error .outOfFuel ∨
      ∃ vs j, parseSayLoop tokens fuel values i = .ok (vs, j) ∧ i ≤ j ∧ j < tokens.length := by
  intro fuel
  induction fuel with
  | zero =>
    intro values i hi
    rw [parseSayLoop]
    split_ifs with hlen
    · exact Or.inl rfl
    · exact Or.inr ⟨values, i, rfl, Nat.le_refl _, hi⟩
  | succ fuel ih =>
    intro values i hi
    rw [parseSayLoop]
    split_ifs with hlen
    · obtain ⟨e, j, hj, hij, hjlen⟩ := parseExpression_inBounds h hi
      simp only [hj, bind_ok]
      rcases ih (values ++ [e]) j hjlen with hf | ⟨vs, k, hk, hjk, hklen⟩
      · exact Or.inl hf
      · exact Or.inr ⟨vs, k, hk, by omega, hklen⟩
    · exact Or.inr ⟨values, i, rfl, Nat.le_refl _, hi⟩

theorem parseSayStatement_inBounds {tokens : List Token} (h : EndsWithEOF tokens) (fuel : Nat)
    {i : Nat} (hi : i + 1 < tokens.length) :
    parseSayStatement fuel tokens i = .error .outOfFuel ∨
    ∃ s j, parseSayStatement fuel tokens i = .ok (s, j) ∧ i + 1 ≤ j ∧ j < tokens.length := by
  unfold parseSayStatement
  simp only [tokenAt_of_lt (show i < tokens.length by omega), bind_ok]
  rcases parseSayLoop_inBounds h fuel [] (i + 1) hi with hf | ⟨vs, j, hj, hij, hjlen⟩
  · left
    rw [hf]
    rfl
  · right
    simp only [hj, bind_ok]
    exact ⟨_, _, rfl, hij, hjlen⟩

/-- On a slice that ends with EndOfInput the loop of `parse` never reads a
token out of range. -/
theorem parseLoop_inBounds {tokens : List Token} (h : EndsWithEOF tokens) :
    ∀ (fuel : Nat) (statements : List Statement) (i : Nat), i < tokens.length →
      parseLoop tokens fuel statements i ≠ .error .indexOutOfRange := by
  intro fuel
  induction fuel with
  | zero =>
    intro statements i hi
    rw [parseLoop]
    split_ifs with hlen
    · intro hc; cases hc
    · intro hc; cases hc
  | succ fuel ih =>
    intro statements i hi
    rw [parseLoop]
    by_cases hlen : i + 1 < tokens.length
    · simp only [if_pos hlen, tokenAt_of_lt hi, bind_ok]
      split_ifs with h1 h2 h3
      · obtain ⟨s, j, hj, _, hjlen⟩ := parseAssignStatement_inBounds h hi h1.2
        simp only [hj, bind_ok]
        exact ih _ _ hjlen
      · obtain ⟨s, j, hj, _, hjlen⟩ := parseRememberStatement_inBounds h hlen
        simp only [hj, bind_ok]
        exact ih _ _ hjlen
      · rcases parseSayStatement_inBounds h fuel hlen with hf | ⟨s, j, hj, _, hjlen⟩
        · rw [hf]
          intro hc; cases hc
        · simp only [hj, bind_ok]
          exact ih _ _ hjlen
      · obtain ⟨e, j, hj, _, hjlen⟩ := parseExpression_inBounds h hi
        simp only [hj, bind_ok]
        exact ih _ _ hjlen
    · simp only [if_neg hlen]
      intro hc; cases hc

theorem lex_endsWithEOF (input : GoString) : EndsWithEOF (lex input) := by
  refine ⟨⟨TOKEN_EOF, []⟩, ?_, rfl⟩
  unfold lex
  simp

/-! ## Parsing after a prefix that is already consumed

The parser at cursor `len(p) + k` of the slice `p ++ rest` does what it does at
cursor `k` of the slice `rest`, with the cursors moved by `len(p)`. -/

theorem shiftCursor_ok {α : Type} (a : Nat) (x : α) (j : Nat) :
    shiftCursor a (Except.ok (x, j) : Except Fault (α × Nat)) = .ok (x, a + j) := rfl

theorem shiftCursor_error {α : Type} (a : Nat) (err : Fault) :
    shiftCursor a (Except.error err : Except Fault (α × Nat)) = .error err := rfl

theorem tokenAt_append (p rest : List Token) (k : Nat) :
    tokenAt (p ++ rest) (p.length + k) = tokenAt rest k := by
  unfold tokenAt
  rw [List.getElem?_append_right (Nat.le_add_right _ _), Nat.add_sub_cancel_left]

theorem typeAtIs_append (p rest : List Token) (k : Nat) (ty : TokenType) :
    typeAtIs (p ++ rest) (p.length + k) ty = typeAtIs rest k ty := by
  unfold typeAtIs
  rw [List.getElem?_append_right (Nat.le_add_right _ _), Nat.add_sub_cancel_left]

theorem parseFactor_append (p rest : List Token) (k : Nat) :
    parseFactor (p ++ rest) (p.length + k) = shiftCursor p.length (parseFactor rest k) := by
  unfold parseFactor
  rw [tokenAt_append]
  cases tokenAt rest k with
  | error err => rfl
  | ok t =>
    simp only [bind_ok]
    split_ifs <;> rfl

theorem infixLoop_append (p rest : List Token) {isOp : Token → Bool}
    {op1 op2 : Nat → Except Fault (Expression × Nat)}
    (hop : ∀ k, op1 (p.length + k) = shiftCursor p.length (op2 k))
    (hcur : ∀ k e j, op2 k = .ok (e, j) → k ≤ j) :
    ∀ (gas : Nat) (e : Expression) (k : Nat),
      infixLoop (p ++ rest) isOp op1 gas e (p.length + k) =
        shiftCursor p.length (infixLoop rest isOp op2 gas e k) := by
  intro gas
  induction gas with
  | zero => intro e k; rfl
  | succ gas ih =>
    intro e k
    rw [infixLoop, infixLoop, tokenAt_append]
    by_cases hlen : k + 1 < rest.length
    · have hlen' : p.length + k + 1 < (p ++ rest).length := by
        rw [List.length_append]; omega
      simp only [if_pos hlen, if_pos hlen', tokenAt_of_lt (show k < rest.length by omega), bind_ok]
      by_cases hisop : isOp rest[k] = true
      · simp only [if_pos hisop]
        rw [Nat.add_assoc, hop (k + 1)]
        cases hf : op2 (k + 1) with
        | error err => rfl
        | ok q =>
          obtain ⟨right, j⟩ := q
          have hj := hcur _ _ _ hf
          obtain ⟨j', rfl⟩ : ∃ j', j = j' + 1 := ⟨j - 1, by omega⟩
          simp only [shiftCursor_ok, bind_ok]
          rw [← Nat.add_assoc, tokenBefore_succ, tokenBefore_succ, tokenAt_append]
          cases tokenAt rest j' with
          | error err => rfl
          | ok tok =>
            simp only [bind_ok]
            rw [Nat.add_assoc]
            exact ih _ _
      · simp only [if_neg hisop]
        rfl
    · have hlen' : ¬ p.length + k + 1 < (p ++ rest).length := by
        rw [List.length_append]; omega
      simp only [if_neg hlen, if_neg hlen']
      rfl

theorem parseTerm_append (p rest : List Token) (k : Nat) :
    parseTerm (p ++ rest) (p.length + k) = shiftCursor p.length (parseTerm rest k) := by
  rw [parseTerm_eq (p ++ rest) (p.length + k) (p ++ rest).length (by omega),
    parseTerm_eq rest k (p ++ rest).length (by rw [List.length_append]; omega),
    parseFactor_append]
  cases hf : parseFactor rest k with
  | error err => rfl
  | ok q =>
    obtain ⟨e, j⟩ := q
    simp only [shiftCursor_ok, bind_ok]
    exact infixLoop_append p rest (parseFactor_append p rest)
      (fun k e j hk => (parseFactor_cursor hk).1) _ _ _

theorem parseExpression_append (p rest : List Token) (k : Nat) :
    parseExpression (p ++ rest) (p.length + k) =
      shiftCursor p.length (parseExpression rest k) := by
  rw [parseExpression_eq (p ++ rest) (p.length + k) (p ++ rest).length (by omega),
    parseExpression_eq rest k (p ++ rest).length (by rw [List.length_append]; omega),
    parseTerm_append]
  cases hf : parseTerm rest k with
  | error err => rfl
  | ok q =>
    obtain ⟨e, j⟩ := q
    simp only [shiftCursor_ok, bind_ok]
    exact infixLoop_append p rest (parseTerm_append p rest)
      (fun k e j hk => parseTerm_cursor hk) _ _ _

theorem parseAssignStatement_append (p rest : List Token) (k : Nat) :
    parseAssignStatement (p ++ rest) (p.length + k) =
      shiftCursor p.length (parseAssignStatement rest k) := by
  unfold parseAssignStatement
  rw [tokenAt_append, Nat.add_assoc, parseExpression_append]
  cases tokenAt rest k with
  | error err => rfl
  | ok t =>
    simp only [bind_ok]
    cases parseExpression rest (k + 2) with
    | error err => rfl
    | ok q => rfl

theorem parseRememberStatement_append (p rest : List Token) (k : Nat) :
    parseRememberStatement (p ++ rest) (p.length + k) =
      shiftCursor p.length (parseRememberStatement rest k) := by
  unfold parseRememberStatement
  simp only [Nat.add_assoc, tokenAt_append, typeAtIs_append, parseExpression_append]
  cases tokenAt rest k with
  | error err => rfl
  | ok t =>
    simp only [bind_ok]
    split_ifs with h1 h2
    · cases tokenAt rest (k + 1) with
      | error err => rfl
      | ok n =>
        simp only [bind_ok]
        cases parseExpression rest (k + 3) with
        | error err => rfl
        | ok q => rfl
    · cases tokenAt rest (k + 1) with
      | error err => rfl
      | ok n => rfl
    · rfl

theorem parseSayLoop_append (p rest : List Token) :
    ∀ (fuel : Nat) (values : List Expression) (k : Nat),
      parseSayLoop (p ++ rest) fuel values (p.length + k) =
        shiftCursor p.length (parseSayLoop rest fuel values k) := by
  intro fuel
  induction fuel with
  | zero =>
    intro values k
    rw [parseSayLoop, parseSayLoop]
    by_cases hlen : k + 1 < rest.length
    · rw [if_pos hlen, if_pos (by rw [List.length_append]; omega)]
      rfl
    · rw [if_neg hlen, if_neg (by rw [List.length_append]; omega)]
      rfl
  | succ fuel ih =>
    intro values k
    rw [parseSayLoop, parseSayLoop]
    by_cases hlen : k + 1 < rest.length
    · rw [if_pos hlen, if_pos (by rw [List.length_append]; omega), parseExpression_append]
      cases parseExpression rest k with
      | error err => rfl
      | ok q =>
        simp only [shiftCursor_ok, bind_ok]
        exact ih _ _
    · rw [if_neg hlen, if_neg (by rw [List.length_append]; omega)]
      rfl

theorem parseSayStatement_append (p rest : List Token) (fuel k : Nat) :
    parseSayStatement fuel (p ++ rest) (p.length + k) =
      shiftCursor p.length (parseSayStatement fuel rest k) := by
  unfold parseSayStatement
  rw [tokenAt_append, Nat.add_assoc, parseSayLoop_append]
  cases tokenAt rest k with
  | error err => rfl
  | ok t =>
    simp only [bind_ok]
    cases parseSayLoop rest fuel [] (k + 1) with
    | error err => rfl
    | ok q => rfl

theorem parseLoop_append (p rest : List Token) :
    ∀ (fuel : Nat) (statements : List Statement) (k : Nat),
      parseLoop (p ++ rest) fuel statements (p.length + k) =
        parseLoop rest fuel statements k := by
  intro fuel
  induction fuel with
  | zero =>
    intro statements k
    rw [parseLoop, parseLoop]
    by_cases hlen : k + 1 < rest.length
    · rw [if_pos hlen, if_pos (by rw [List.length_append]; omega)]
    · rw [if_neg hlen, if_neg (by rw [List.length_append]; omega)]
  | succ fuel ih =>
    intro statements k
    rw [parseLoop, parseLoop]
    by_cases hlen : k + 1 < rest.length
    · rw [if_pos hlen, if_pos (by rw [List.length_append]; omega)]
      simp only [Nat.add_assoc, tokenAt_append, typeAtIs_append, parseAssignStatement_append,
        parseRememberStatement_append, parseSayStatement_append, parseExpression_append]
      cases tokenAt rest k with
      | error err => rfl
      | ok t =>
        simp only [bind_ok]
        split_ifs with h1 h2 h3
        · cases parseAssignStatement rest k with
          | error err => rfl
          | ok q =>
            simp only [shiftCursor_ok, bind_ok]
            exact ih _ _
        · cases parseRememberStatement rest k with
          | error err => rfl
          | ok q =>
            simp only [shiftCursor_ok, bind_ok]
            exact ih _ _
        · cases parseSayStatement fuel rest k with
          | error err => rfl
          | ok q =>
            simp only [shiftCursor_ok, bind_ok]
            exact ih _ _
        · cases parseExpression rest k with
          | error err => rfl
          | ok q =>
            simp only [shiftCursor_ok, bind_ok]
            exact ih _ _
    · rw [if_neg hlen, if_neg (by rw [List.length_append]; omega)]

/-! ## Evaluation of expressions -/

theorem evalExpression_infix_floats (memory : Store) (tok : Token) (L R : Expression)
    (op : GoString) (l r : F64)
    (hl : evalExpression memory L = .float64 l) (hr : evalExpression memory R = .float64 r) :
    evalExpression memory (.InfixExpression tok L op R) =
      if op = utf8 "plus" ∨ op = utf8 "+" then .float64 (F64.add l r)
      else if op = utf8 "minus" ∨ op = utf8 "-" then .float64 (F64.sub l r)
      else if op = utf8 "times" ∨ op = utf8 "*" then .float64 (F64.mul l r)
      else if op = utf8 "over" then
        if !r.isZero then .float64 (F64.div l r) else .string (utf8 "Error: Division by zero")
      else .string (toString (.float64 l) ++ toString (.float64 r)) := by
  simp only [evalExpression, hl, hr]

/-- C1: when both operands evaluate to numbers `l` and `r`, an infix expression
with operator `plus` or `+` evaluates to the number `l + r`, with `minus` or
`-` to `l - r`, with `times` or `*` to `l * r`, and with `over` to `l / r` when
`r` is not 0 and to the text `Error: Division by zero` when `r` is 0. -/
theorem C1_infix_arithmetic (memory : Store) (tok : Token) (L R : Expression)
    (op : GoString) (l r : F64)
    (hl : evalExpression memory L = .float64 l) (hr : evalExpression memory R = .float64 r) :
    ((op = utf8 "plus" ∨ op = utf8 "+") →
      evalExpression memory (.InfixExpression tok L op R) = .float64 (F64.add l r)) ∧
    ((op = utf8 "minus" ∨ op = utf8 "-") →
      evalExpression memory (.InfixExpression tok L op R) = .float64 (F64.sub l r)) ∧
    ((op = utf8 "times" ∨ op = utf8 "*") →
      evalExpression memory (.InfixExpression tok L op R) = .float64 (F64.mul l r)) ∧
    (op = utf8 "over" →
      evalExpression memory (.InfixExpression tok L op R) =
        if r.isZero then .string (utf8 "Error: Division by zero") else .float64 (F64.div l r)) := by
  rw [evalExpression_infix_floats memory tok L R op l r hl hr]
  refine ⟨?_, ?_, ?_, ?_⟩
  · intro h
    rw [if_pos h]
  · intro h
    rcases h with h | h <;> subst h <;> rfl
  · intro h
    rcases h with h | h <;> subst h <;> rfl
  · intro h
    subst h
    cases hz : r.isZero <;> rfl

/-- C1 at `6 over 2` and `6 over 0` in the empty store. -/
theorem C1_infix_arithmetic_witness :
    evalExpression Store.empty (.NumberLiteral Token.zero (F64.ofNat 6)) = .float64 (F64.ofNat 6) ∧
    evalExpression Store.empty (.NumberLiteral Token.zero (F64.ofNat 2)) = .float64 (F64.ofNat 2) ∧
    evalExpression Store.empty (.InfixExpression Token.zero (.NumberLiteral Token.zero (F64.ofNat 6))
        (utf8 "over") (.NumberLiteral Token.zero (F64.ofNat 2))) = .float64 (F64.ofNat 3) :=
  ⟨rfl, rfl, by
    have h := (C1_infix_arithmetic Store.empty Token.zero (.NumberLiteral Token.zero (F64.ofNat 6))
      (.NumberLiteral Token.zero (F64.ofNat 2)) (utf8 "over") (F64.ofNat 6) (F64.ofNat 2) rfl rfl).2.2.2 rfl
    rw [h]
    decide⟩

/-! ## One-shot evaluation -/

theorem evaluateBubble_eq (fuel : Nat) (memory : Store) (input : GoString) :
    evaluateBubble fuel memory input = (parse fuel (lex input)).map (interpret memory) := by
  unfold evaluateBubble
  cases parse fuel (lex input) <;> rfl

theorem evaluateBubble_result_fuel_add {memory : Store} {input : GoString} {fuel : Nat}
    {v : Value} (h : (evaluateBubble fuel memory input).map Prod.fst = .ok v) (extra : Nat) :
    (evaluateBubble (fuel + extra) memory input).map Prod.fst = .ok v := by
  cases hr : evaluateBubble fuel memory input with
  | error err => rw [hr] at h; cases h
  | ok r =>
    rw [evaluateBubble_fuel_add hr extra]
    rw [hr] at h
    exact h

/-- C2: the symbolic operator `/` does not divide. On the line `6 / 2` the
pipeline returns the text `62`, the two operands formatted and joined, from
any store; on the line `6 over 2` it returns the number 3. -/
theorem C2_slash_concatenates (fuel : Nat) (memory : Store) :
    (evaluateBubble (fuel + 1) memory (utf8 "6 / 2")).map Prod.fst = .ok (.string (utf8 "62")) ∧
    (evaluateBubble (fuel + 1) memory (utf8 "6 over 2")).map Prod.fst =
      .ok (.float64 (F64.ofNat 3)) := by
  have h1 : (evaluateBubble 1 memory (utf8 "6 / 2")).map Prod.fst = .ok (.string (utf8 "62")) := by
    rw [evaluateBubble_eq]
    have hp : parse 1 (lex (utf8 "6 / 2")) = .ok [.AssignmentStatement Token.zero []
        (.InfixExpression ⟨TOKEN_NUMBER, utf8 "2"⟩
          (.NumberLiteral ⟨TOKEN_NUMBER, utf8 "6"⟩ (F64.ofNat 6)) (utf8 "/")
          (.NumberLiteral ⟨TOKEN_NUMBER, utf8 "2"⟩ (F64.ofNat 2)))] := by decide
    rw [hp]
    have he : evalExpression memory (.InfixExpression ⟨TOKEN_NUMBER, utf8 "2"⟩
          (.NumberLiteral ⟨TOKEN_NUMBER, utf8 "6"⟩ (F64.ofNat 6)) (utf8 "/")
          (.NumberLiteral ⟨TOKEN_NUMBER, utf8 "2"⟩ (F64.ofNat 2))) = .string (utf8 "62") := by
      simp only [evalExpression]
      decide
    simp only [Except.map, interpret, interpretLoop, he]
  have h2 : (evaluateBubble 1 memory (utf8 "6 over 2")).map Prod.fst =
      .ok (.float64 (F64.ofNat 3)) := by
    rw [evaluateBubble_eq]
    have hp : parse 1 (lex (utf8 "6 over 2")) = .ok [.AssignmentStatement Token.zero []
        (.InfixExpression ⟨TOKEN_NUMBER, utf8 "2"⟩
          (.NumberLiteral ⟨TOKEN_NUMBER, utf8 "6"⟩ (F64.ofNat 6)) (utf8 "over")
          (.NumberLiteral ⟨TOKEN_NUMBER, utf8 "2"⟩ (F64.ofNat 2)))] := by decide
    rw [hp]
    have he : evalExpression memory (.InfixExpression ⟨TOKEN_NUMBER, utf8 "2"⟩
          (.NumberLiteral ⟨TOKEN_NUMBER, utf8 "6"⟩ (F64.ofNat 6)) (utf8 "over")
          (.NumberLiteral ⟨TOKEN_NUMBER, utf8 "2"⟩ (F64.ofNat 2))) = .float64 (F64.ofNat 3) := by
      simp only [evalExpression]
      decide
    simp only [Except.map, interpret, interpretLoop, he]
  have e1 := evaluateBubble_result_fuel_add h1 fuel
  have e2 := evaluateBubble_result_fuel_add h2 fuel
  rw [Nat.add_comm] at e1 e2
  exact ⟨e1, e2⟩

theorem parseLoop_stuck {tokens : List Token} {i : Nat} (hlen : i + 1 < tokens.length)
    (hty : ∀ t, tokenAt tokens i = .ok t →
      ¬ (t.Typ = TOKEN_IDENTIFIER ∧ typeAtIs tokens (i + 1) TOKEN_ASSIGN = true) ∧
      t.Typ ≠ TOKEN_REMEMBER ∧ t.Typ ≠ TOKEN_SAY)
    (hstay : ∃ e, parseExpression tokens i = .ok (e, i)) :
    ∀ (fuel : Nat) (statements : List Statement),
      parseLoop tokens fuel statements i = .error .outOfFuel := by
  intro fuel
  induction fuel with
  | zero =>
    intro statements
    rw [parseLoop, if_pos hlen]
  | succ fuel ih =>
    intro statements
    obtain ⟨e, he⟩ := hstay
    have ht := tokenAt_of_lt (show i < tokens.length by omega)
    obtain ⟨h1, h2, h3⟩ := hty _ ht
    rw [parseLoop, if_pos hlen, ht, bind_ok, if_neg h1, if_neg h2, if_neg h3, he, bind_ok]
    exact ih _

theorem parseSayLoop_stuck {tokens : List Token} {i : Nat} (hlen : i + 1 < tokens.length)
    (hstay : ∃ e, parseExpression tokens i = .ok (e, i)) :
    ∀ (fuel : Nat) (values : List Expression),
      parseSayLoop tokens fuel values i = .error .outOfFuel := by
  intro fuel
  induction fuel with
  | zero =>
    intro values
    rw [parseSayLoop, if_pos hlen]
  | succ fuel ih =>
    intro values
    obtain ⟨e, he⟩ := hstay
    rw [parseSayLoop, if_pos hlen, he, bind_ok]
    exact ih _

/-- C3: `parse` does not return on every line. On the tokens of the line `=`
the main loop never moves the cursor: whatever the fuel, the run is still in
the loop when the fuel is used up. The same holds for the loop of
`parseSayStatement` on the line `say =`. -/
theorem C3_parse_loops_forever (fuel : Nat) :
    lex (utf8 "=") = [⟨TOKEN_ASSIGN, utf8 "="⟩, ⟨TOKEN_EOF, []⟩] ∧
    parseExpression (lex (utf8 "=")) 0 = .ok (.nil, 0) ∧
    parse fuel (lex (utf8 "=")) = .error .outOfFuel ∧
    parse fuel (lex (utf8 "say =")) = .error .outOfFuel := by
  refine ⟨by decide, by decide, ?_, ?_⟩
  · exact @parseLoop_stuck (lex (utf8 "=")) 0 (by decide)
      (by
        intro t ht
        have : t = ⟨TOKEN_ASSIGN, utf8 "="⟩ := by
          have h0 : tokenAt (lex (utf8 "=")) 0 = .ok ⟨TOKEN_ASSIGN, utf8 "="⟩ := by decide
          rw [h0] at ht
          cases ht
          rfl
        subst this
        decide)
      ⟨.nil, by decide⟩ fuel []
  · cases fuel with
    | zero => decide
    | succ fuel =>
      have hs : parseSayLoop (lex (utf8 "say =")) fuel [] 1 = .error .outOfFuel :=
        @parseSayLoop_stuck (lex (utf8 "say =")) 1 (by decide)
          ⟨.nil, by decide⟩ fuel []
      have ht : tokenAt (lex (utf8 "say =")) 0 = .ok ⟨TOKEN_SAY, utf8 "say"⟩ := by decide
      have hl : 0 + 1 < (lex (utf8 "say =")).length := by decide
      rw [parse, parseLoop, if_pos hl, ht, bind_ok, if_neg (by decide), if_neg (by decide),
        if_pos (by decide)]
      unfold parseSayStatement
      rw [ht, bind_ok, hs]
      rfl

/-- On the tokens of any input string the pipeline never reads a token out of
range, whatever the fuel: it returns, or it is still in a loop when the fuel is
used up; and the absent expression evaluates to the absent value. -/
theorem no_index_out_of_range (fuel : Nat) (memory : Store) (input : GoString) :
    ((∃ r, evaluateBubble fuel memory input = .ok r) ∨
      evaluateBubble fuel memory input = .error .outOfFuel) ∧
    evalExpression memory .nil = .nil := by
  refine ⟨?_, rfl⟩
  rw [evaluateBubble_eq]
  have h := parseLoop_inBounds (lex_endsWithEOF input) fuel [] 0 (lex_endsWithEOF input).pos
  change parse fuel (lex input) ≠ _ at h
  cases hp : parse fuel (lex input) with
  | ok stmts => exact Or.inl ⟨_, rfl⟩
  | error err =>
    cases err with
    | indexOutOfRange => exact absurd hp h
    | outOfFuel => exact Or.inr rfl

/-- C4 fails on the line `=`: the pipeline does not end normally there. No
amount of fuel lets it return, and each round of the main loop of `parse`
leaves the cursor on the first token and makes the list of statements one
longer, so the list grows without bound. The same holds for the list of values
in the loop of `parseSayStatement` on the line `say =`. -/
theorem C4_statements_grow_without_bound (fuel : Nat) (memory : Store)
    (statements : List Statement) (values : List Expression) :
    evaluateBubble fuel memory (utf8 "=") = .error .outOfFuel ∧
    parseLoop (lex (utf8 "=")) (fuel + 1) statements 0 =
      parseLoop (lex (utf8 "=")) fuel
        (statements ++ [.AssignmentStatement Token.zero [] .nil]) 0 ∧
    parseSayLoop (lex (utf8 "say =")) (fuel + 1) values 1 =
      parseSayLoop (lex (utf8 "say =")) fuel (values ++ [.nil]) 1 := by
  refine ⟨?_, ?_, ?_⟩
  · rw [evaluateBubble_eq]
    have hp : parse fuel (lex (utf8 "=")) = .error .outOfFuel :=
      @parseLoop_stuck (lex (utf8 "=")) 0 (by decide)
        (by
          intro t ht
          have h0 : tokenAt (lex (utf8 "=")) 0 = .ok ⟨TOKEN_ASSIGN, utf8 "="⟩ := by decide
          rw [h0] at ht
          cases ht
          decide)
        ⟨.nil, by decide⟩ fuel []
    rw [hp]
    rfl
  · have hl : lex (utf8 "=") = [⟨TOKEN_ASSIGN, utf8 "="⟩, ⟨TOKEN_EOF, []⟩] := by decide
    rw [hl]
    rfl
  · have hl : lex (utf8 "say =") =
        [⟨TOKEN_SAY, utf8 "say"⟩, ⟨TOKEN_ASSIGN, utf8 "="⟩, ⟨TOKEN_EOF, []⟩] := by decide
    rw [hl]
    rfl

/-! ## The result of a line -/

theorem evalExpression_eq_nil {memory : Store} {e : Expression}
    (h : evalExpression memory e = .nil) : e = .nil ∨ ∃ t n, e = .Identifier t n := by
  cases e with
  | nil => exact Or.inl rfl
  | NumberLiteral tok v => simp only [evalExpression] at h; cases h
  | StringLiteral tok v => simp only [evalExpression] at h; cases h
  | Identifier tok n => exact Or.inr ⟨tok, n, rfl⟩
  | InfixExpression tok l op r =>
    simp only [evalExpression] at h
    split at h
    · split_ifs at h
    · cases h

theorem interpretLoop_eq_nil :
    ∀ (stmts : List Statement) (memory : Store) (r : Value),
      (interpretLoop memory r stmts).1 = .nil →
      (stmts = [] ∧ r = .nil) ∨
      ∃ tok name e, stmts.getLast? = some (.AssignmentStatement tok name e) ∧
        (e = .nil ∨ ∃ t n, e = .Identifier t n) := by
  intro stmts
  induction stmts with
  | nil =>
    intro memory r h
    exact Or.inl ⟨rfl, h⟩
  | cons s rest ih =>
    intro memory r h
    right
    cases s with
    | AssignmentStatement tok name e =>
      simp only [interpretLoop] at h
      rcases ih _ _ h with ⟨hrest, hv⟩ | ⟨tok', name', e', hlast, he'⟩
      · subst hrest
        exact ⟨tok, name, e, rfl, evalExpression_eq_nil hv⟩
      · refine ⟨tok', name', e', ?_, he'⟩
        cases rest with
        | nil => simp at hlast
        | cons b l => rw [List.getLast?_cons_cons]; exact hlast
    | SayStatement tok values =>
      simp only [interpretLoop] at h
      rcases ih _ _ h with ⟨_, hv⟩ | ⟨tok', name', e', hlast, he'⟩
      · cases hv
      · refine ⟨tok', name', e', ?_, he'⟩
        cases rest with
        | nil => simp at hlast
        | cons b l => rw [List.getLast?_cons_cons]; exact hlast

/-- C5, as the code has it: a line on which the pipeline returns gives a
number, a text, or the absent value nil; it gives nil only when the line has no
statement, or when its last statement is an assignment or bare expression
whose value is the absent expression or an identifier. -/
theorem C5_result_kinds (fuel : Nat) (memory : Store) (line : GoString) (v : Value) (m : Store)
    (h : evaluateBubble fuel memory line = .ok (v, m)) :
    (∃ f, v = .float64 f) ∨ (∃ s, v = .string s) ∨
    (v = .nil ∧ ∃ stmts, parse fuel (lex line) = .ok stmts ∧
      (stmts = [] ∨
        ∃ tok name e, stmts.getLast? = some (.AssignmentStatement tok name e) ∧
          (e = .nil ∨ ∃ t n, e = .Identifier t n))) := by
  cases v with
  | float64 f => exact Or.inl ⟨f, rfl⟩
  | string s => exact Or.inr (Or.inl ⟨s, rfl⟩)
  | nil =>
    refine Or.inr (Or.inr ⟨rfl, ?_⟩)
    rw [evaluateBubble_eq] at h
    cases hp : parse fuel (lex line) with
    | error err => rw [hp] at h; cases h
    | ok stmts =>
      rw [hp] at h
      refine ⟨stmts, rfl, ?_⟩
      have hv : (interpretLoop memory .nil stmts).1 = .nil := by
        have h' : interpret memory stmts = (Value.nil, m) := by
          simpa [Except.map] using h
        unfold interpret at h'
        rw [h']
      rcases interpretLoop_eq_nil stmts memory .nil hv with ⟨hs, _⟩ | hlast
      · exact Or.inl hs
      · exact Or.inr hlast

/-- C5 at the line `remember`, which gives nil. -/
theorem C5_result_kinds_witness :
    evaluateBubble 1 Store.empty (utf8 "remember") = .ok (.nil, Store.empty) ∧
    ((∃ f, Value.nil = .float64 f) ∨ (∃ s, Value.nil = .string s) ∨
    (Value.nil = .nil ∧ ∃ stmts, parse 1 (lex (utf8 "remember")) = .ok stmts ∧
      (stmts = [] ∨
        ∃ tok name e, stmts.getLast? = some (.AssignmentStatement tok name e) ∧
          (e = .nil ∨ ∃ t n, e = .Identifier t n)))) :=
  ⟨rfl, C5_result_kinds 1 Store.empty (utf8 "remember") .nil Store.empty rfl⟩

/-- C5 as stated fails: the empty line and the line `remember` give the absent
value nil, neither a number nor a text. -/
theorem C5_counterexample :
    (evaluateBubble 1 Store.empty (utf8 "")).map Prod.fst = .ok .nil ∧
    (evaluateBubble 1 Store.empty (utf8 "remember")).map Prod.fst = .ok .nil := by
  decide

/-! ## Precedence -/

theorem parse_single {tokens : List Token} {e : Expression} {j : Nat} (fuel : Nat)
    (hlen : 0 + 1 < tokens.length) {t : Token} (ht : tokens[0]? = some t)
    (h1 : t.Typ ≠ TOKEN_IDENTIFIER) (h2 : t.Typ ≠ TOKEN_REMEMBER) (h3 : t.Typ ≠ TOKEN_SAY)
    (he : parseExpression tokens 0 = .ok (e, j)) (hj : tokens.length ≤ j + 1) :
    parse (fuel + 1) tokens = .ok [.AssignmentStatement Token.zero [] e] := by
  have ht' : tokenAt tokens 0 = .ok t := by
    unfold tokenAt
    rw [ht]
  rw [parse, parseLoop, if_pos hlen, ht', bind_ok, if_neg (fun h => h1 h.1), if_neg h2, if_neg h3,
    he, bind_ok]
  exact parseLoop_done _ _ hj

/-- The result of a line that is one bare expression. -/
theorem evaluateBubble_single {input : GoString} {tok : Token} {e : Expression} {v : Value}
    (memory : Store) (fuel : Nat)
    (hp : parse 1 (lex input) = .ok [.AssignmentStatement tok [] e])
    (he : evalExpression memory e = v) :
    (evaluateBubble (fuel + 1) memory input).map Prod.fst = .ok v := by
  have h1 : (evaluateBubble 1 memory input).map Prod.fst = .ok v := by
    rw [evaluateBubble_eq, hp]
    simp only [Except.map, interpret, interpretLoop, he]
  have h2 := evaluateBubble_result_fuel_add h1 fuel
  rw [Nat.add_comm] at h2
  exact h2

/-- C6: multiplicative operators bind tighter than additive ones. For all
Number tokens `a`, `b`, `c`, the tokens `a Plus b Times c EndOfInput` parse to
the one bare-expression statement `a plus (b times c)`, and the tokens
`a Times b Plus c EndOfInput` to `(a times b) plus c`; so `2 plus 3 times 4`
gives the number 14 and `2 times 3 plus 4` the number 10. -/
theorem C6_precedence (fuel : Nat) (memory : Store) (a b c p t z : GoString) :
    parse (fuel + 1) [⟨TOKEN_NUMBER, a⟩, ⟨TOKEN_PLUS, p⟩, ⟨TOKEN_NUMBER, b⟩, ⟨TOKEN_TIMES, t⟩,
        ⟨TOKEN_NUMBER, c⟩, ⟨TOKEN_EOF, z⟩] =
      .ok [.AssignmentStatement Token.zero []
        (.InfixExpression ⟨TOKEN_NUMBER, c⟩
          (.NumberLiteral ⟨TOKEN_NUMBER, a⟩ (ParseFloat a).1) p
          (.InfixExpression ⟨TOKEN_NUMBER, c⟩
            (.NumberLiteral ⟨TOKEN_NUMBER, b⟩ (ParseFloat b).1) t
            (.NumberLiteral ⟨TOKEN_NUMBER, c⟩ (ParseFloat c).1)))] ∧
    parse (fuel + 1) [⟨TOKEN_NUMBER, a⟩, ⟨TOKEN_TIMES, t⟩, ⟨TOKEN_NUMBER, b⟩, ⟨TOKEN_PLUS, p⟩,
        ⟨TOKEN_NUMBER, c⟩, ⟨TOKEN_EOF, z⟩] =
      .ok [.AssignmentStatement Token.zero []
        (.InfixExpression ⟨TOKEN_NUMBER, c⟩
          (.InfixExpression ⟨TOKEN_NUMBER, b⟩
            (.NumberLiteral ⟨TOKEN_NUMBER, a⟩ (ParseFloat a).1) t
            (.NumberLiteral ⟨TOKEN_NUMBER, b⟩ (ParseFloat b).1)) p
          (.NumberLiteral ⟨TOKEN_NUMBER, c⟩ (ParseFloat c).1))] ∧
    (evaluateBubble (fuel + 1) memory (utf8 "2 plus 3 times 4")).map Prod.fst =
      .ok (.float64 (F64.ofNat 14)) ∧
    (evaluateBubble (fuel + 1) memory (utf8 "2 times 3 plus 4")).map Prod.fst =
      .ok (.float64 (F64.ofNat 10)) := by
  refine ⟨?_, ?_, ?_, ?_⟩
  · exact parse_single (j := 5) fuel (by simp) rfl (by simp) (by simp) (by simp) rfl
      (by simp)
  · exact parse_single (j := 5) fuel (by simp) rfl (by simp) (by simp) (by simp) rfl
      (by simp)
  · refine @evaluateBubble_single _ Token.zero
      (.InfixExpression ⟨TOKEN_NUMBER, utf8 "4"⟩
        (.NumberLiteral ⟨TOKEN_NUMBER, utf8 "2"⟩ (F64.ofNat 2)) (utf8 "plus")
        (.InfixExpression ⟨TOKEN_NUMBER, utf8 "4"⟩
          (.NumberLiteral ⟨TOKEN_NUMBER, utf8 "3"⟩ (F64.ofNat 3)) (utf8 "times")
          (.NumberLiteral ⟨TOKEN_NUMBER, utf8 "4"⟩ (F64.ofNat 4)))) _ memory fuel (by decide) ?_
    simp only [evalExpression]
    decide
  · refine @evaluateBubble_single _ Token.zero
      (.InfixExpression ⟨TOKEN_NUMBER, utf8 "4"⟩
        (.InfixExpression ⟨TOKEN_NUMBER, utf8 "3"⟩
          (.NumberLiteral ⟨TOKEN_NUMBER, utf8 "2"⟩ (F64.ofNat 2)) (utf8 "times")
          (.NumberLiteral ⟨TOKEN_NUMBER, utf8 "3"⟩ (F64.ofNat 3))) (utf8 "plus")
        (.NumberLiteral ⟨TOKEN_NUMBER, utf8 "4"⟩ (F64.ofNat 4))) _ memory fuel (by decide) ?_
    simp only [evalExpression]
    decide

/-! ## Say statements -/

theorem infixLoop_halt {tokens : List Token} {isOp : Token → Bool}
    {operand : Nat → Except Fault (Expression × Nat)} (gas : Nat) (e : Expression) {i : Nat}
    (h : ∀ u, tokens[i]? = some u → i + 1 < tokens.length → isOp u = false) :
    infixLoop tokens isOp operand gas e i = .ok (e, i) := by
  by_cases hi : i + 1 < tokens.length
  · have hi' : i < tokens.length := by omega
    exact infixLoop_stop gas e hi' (h _ (List.getElem?_eq_getElem hi') hi)
  · exact infixLoop_done gas e (by omega)

theorem parseFactor_factor {t : Token} (rest : List Token) (ht : isFactorToken t = true) :
    parseFactor (t :: rest) 0 = .ok (factorNode t, 1) := by
  rw [parseFactor_of_lt (by simp)]
  simp only [isFactorToken, decide_eq_true_eq] at ht
  simp only [List.getElem_cons_zero, factorNode]
  split_ifs with h1 h2 h3
  · rfl
  · rfl
  · rfl
  · rcases ht with h | h | h
    · exact absurd h h1
    · exact absurd h h2
    · exact absurd h h3

theorem isTermOp_of_factor {t : Token} (ht : isFactorToken t = true) : isTermOp t = false := by
  simp only [isFactorToken, decide_eq_true_eq] at ht
  simp only [isTermOp, decide_eq_false_iff_not]
  rcases ht with h | h | h <;> rw [h] <;> decide

theorem isExprOp_of_factor {t : Token} (ht : isFactorToken t = true)
    (hv : t.Value ≠ utf8 "plus" ∧ t.Value ≠ utf8 "minus") : isExprOp t = false := by
  simp only [isFactorToken, decide_eq_true_eq] at ht
  simp only [isExprOp, decide_eq_false_iff_not]
  rcases ht with h | h | h <;> rw [h] <;> simp [hv.1, hv.2]

/-- A factor token that is followed by no operator is an expression of its own. -/
theorem parseExpression_factor {t : Token} {rest : List Token} (ht : isFactorToken t = true)
    (hnext : ∀ u, (t :: rest)[1]? = some u → 1 + 1 < (t :: rest).length →
      isTermOp u = false ∧ isExprOp u = false) :
    parseExpression (t :: rest) 0 = .ok (factorNode t, 1) := by
  unfold parseExpression parseTerm
  rw [parseFactor_factor rest ht, bind_ok]
  simp only [parseTermLoop_eq, parseExpressionLoop_eq]
  rw [infixLoop_halt _ _ (fun u hu hi => (hnext u hu hi).1), bind_ok]
  exact infixLoop_halt _ _ (fun u hu hi => (hnext u hu hi).2)

theorem parseSayLoop_factors (eof : Token) (fuel : Nat) :
    ∀ (ts : List Token) (values : List Expression),
      (∀ t ∈ ts, isFactorToken t = true) →
      (∀ t ∈ ts.tail, t.Value ≠ utf8 "plus" ∧ t.Value ≠ utf8 "minus") →
      parseSayLoop (ts ++ [eof]) (ts.length + fuel) values 0 =
        .ok (values ++ ts.map factorNode, ts.length) := by
  intro ts
  induction ts with
  | nil =>
    intro values _ _
    rw [parseSayLoop_done _ _ (by simp)]
    simp
  | cons t ts ih =>
    intro values hf hv
    have hfuel : (t :: ts).length + fuel = (ts.length + fuel) + 1 := by
      simp only [List.length_cons]; omega
    have ht : isFactorToken t = true := hf t (List.mem_cons_self _ _)
    have hts : ∀ u ∈ ts, isFactorToken u = true := fun u hu => hf u (List.mem_cons_of_mem _ hu)
    have hvs : ∀ u ∈ ts, u.Value ≠ utf8 "plus" ∧ u.Value ≠ utf8 "minus" := fun u hu => hv u hu
    have hexpr : parseExpression (t :: (ts ++ [eof])) 0 = .ok (factorNode t, 1) := by
      apply parseExpression_factor ht
      intro w hw hi
      cases ts with
      | nil => simp at hi
      | cons u us =>
        have hwu : w = u := by
          simp only [List.cons_append, List.getElem?_cons_succ, List.getElem?_cons_zero,
            Option.some.injEq] at hw
          exact hw.symm
        subst hwu
        have hu : isFactorToken w = true := hts w (List.mem_cons_self _ _)
        exact ⟨isTermOp_of_factor hu, isExprOp_of_factor hu (hvs w (List.mem_cons_self _ _))⟩
    rw [hfuel, List.cons_append, parseSayLoop, if_pos (by simp), hexpr, bind_ok]
    show parseSayLoop (t :: (ts ++ [eof])) (ts.length + fuel) (values ++ [factorNode t]) 1 = _
    have hshift := parseSayLoop_append [t] (ts ++ [eof]) (ts.length + fuel)
      (values ++ [factorNode t]) 0
    simp only [List.singleton_append, List.length_singleton, Nat.add_zero] at hshift
    rw [hshift, ih (values ++ [factorNode t]) hts
      (fun u hu => hvs u (List.mem_of_mem_tail hu)), shiftCursor_ok]
    simp [Nat.add_comm]

theorem foldl_append_flatMap {α : Type} (f : α → GoString) :
    ∀ (es : List α) (acc : GoString),
      es.foldl (fun out e => out ++ f e) acc = acc ++ es.flatMap f := by
  intro es
  induction es with
  | nil => intro acc; simp
  | cons e es ih =>
    intro acc
    rw [List.foldl_cons, ih, List.flatMap_cons, List.append_assoc]

/-- For factor tokens `t1 .. tn` (each a Number, String or Identifier token) of
which none after the first has the text `plus` or `minus`, the tokens
`Say t1 .. tn EndOfInput` parse to one SayStatement with exactly the `n` nodes
of the tokens as values, in order, and interpreting it joins the texts that
the SayStatement case makes of the `n` values, in order with no separator; so
`say 1 2 3` gives the text `123`. -/
theorem say_values_of_factors (fuel : Nat) (memory : Store) (s z : GoString) (ts : List Token)
    (hf : ∀ t ∈ ts, isFactorToken t = true)
    (hv : ∀ t ∈ ts.tail, t.Value ≠ utf8 "plus" ∧ t.Value ≠ utf8 "minus") :
    parse (ts.length + fuel + 1) (⟨TOKEN_SAY, s⟩ :: ts ++ [⟨TOKEN_EOF, z⟩]) =
      .ok [.SayStatement ⟨TOKEN_SAY, s⟩ (ts.map factorNode)] ∧
    (ts.map factorNode).length = ts.length ∧
    (interpret memory [.SayStatement ⟨TOKEN_SAY, s⟩ (ts.map factorNode)]).1 =
      .string (ts.flatMap fun t => Sprintf_v (evalExpression memory (factorNode t))) ∧
    (evaluateBubble (fuel + 4) memory (utf8 "say 1 2 3")).map Prod.fst =
      .ok (.string (utf8 "123")) := by
  refine ⟨?_, List.length_map _ _, ?_, ?_⟩
  · have hloop := parseSayLoop_append [⟨TOKEN_SAY, s⟩] (ts ++ [⟨TOKEN_EOF, z⟩])
      (ts.length + fuel) [] 0
    simp only [List.singleton_append, List.length_singleton, Nat.add_zero] at hloop
    rw [parseSayLoop_factors _ _ ts [] hf hv, shiftCursor_ok] at hloop
    have ht : tokenAt (⟨TOKEN_SAY, s⟩ :: (ts ++ [⟨TOKEN_EOF, z⟩])) 0 = .ok ⟨TOKEN_SAY, s⟩ := by
      simp [tokenAt]
    rw [List.cons_append, parse, parseLoop, if_pos (by simp), ht, bind_ok,
      if_neg (by simp), if_neg (by simp), if_pos rfl]
    unfold parseSayStatement
    rw [ht, bind_ok]
    simp only [Nat.zero_add, hloop, bind_ok, pure_eq_ok, List.nil_append]
    exact parseLoop_done _ _ (by simp; omega)
  · simp only [interpret, interpretLoop, foldl_append_flatMap, List.nil_append, List.flatMap_map]
  · have h1 : (evaluateBubble 4 memory (utf8 "say 1 2 3")).map Prod.fst =
        .ok (.string (utf8 "123")) := by
      rw [evaluateBubble_eq]
      have hp : parse 4 (lex (utf8 "say 1 2 3")) = .ok [.SayStatement ⟨TOKEN_SAY, utf8 "say"⟩
          [.NumberLiteral ⟨TOKEN_NUMBER, utf8 "1"⟩ (F64.ofNat 1),
           .NumberLiteral ⟨TOKEN_NUMBER, utf8 "2"⟩ (F64.ofNat 2),
           .NumberLiteral ⟨TOKEN_NUMBER, utf8 "3"⟩ (F64.ofNat 3)]] := by decide
      rw [hp]
      simp only [Except.map, interpret, interpretLoop, List.foldl, evalExpression]
      decide
    have h2 := evaluateBubble_result_fuel_add h1 fuel
    rw [Nat.add_comm] at h2
    exact h2

/-- C7 fails on the line `say "a" "plus" "b"`: its tokens are Say, three String
tokens and EndOfInput, yet the SayStatement has one value, an infix expression,
not three, and the line gives the text `ab`, not `aplusb`. The loop of
`parseExpression` takes the String token for an operator by its text; the
loop of `parseTerm` looks at the kind only, so that `say "a" "times" "b"` has
three values and gives the text `atimesb`. -/
theorem C7_string_plus_taken_as_operator :
    lex (utf8 "say \"a\" \"plus\" \"b\"") =
      [⟨TOKEN_SAY, utf8 "say"⟩, ⟨TOKEN_STRING, utf8 "a"⟩, ⟨TOKEN_STRING, utf8 "plus"⟩,
        ⟨TOKEN_STRING, utf8 "b"⟩, ⟨TOKEN_EOF, []⟩] ∧
    parse 4 [⟨TOKEN_SAY, utf8 "say"⟩, ⟨TOKEN_STRING, utf8 "a"⟩, ⟨TOKEN_STRING, utf8 "plus"⟩,
        ⟨TOKEN_STRING, utf8 "b"⟩, ⟨TOKEN_EOF, []⟩] =
      .ok [.SayStatement ⟨TOKEN_SAY, utf8 "say"⟩
        [.InfixExpression ⟨TOKEN_STRING, utf8 "b"⟩
          (.StringLiteral ⟨TOKEN_STRING, utf8 "a"⟩ (utf8 "a")) (utf8 "plus")
          (.StringLiteral ⟨TOKEN_STRING, utf8 "b"⟩ (utf8 "b"))]] ∧
    (evaluateBubble 4 Store.empty (utf8 "say \"a\" \"plus\" \"b\"")).map Prod.fst =
      .ok (.string (utf8 "ab")) ∧
    parse 4 [⟨TOKEN_SAY, utf8 "say"⟩, ⟨TOKEN_STRING, utf8 "a"⟩, ⟨TOKEN_STRING, utf8 "times"⟩,
        ⟨TOKEN_STRING, utf8 "b"⟩, ⟨TOKEN_EOF, []⟩] =
      .ok [.SayStatement ⟨TOKEN_SAY, utf8 "say"⟩
        [.StringLiteral ⟨TOKEN_STRING, utf8 "a"⟩ (utf8 "a"),
         .StringLiteral ⟨TOKEN_STRING, utf8 "times"⟩ (utf8 "times"),
         .StringLiteral ⟨TOKEN_STRING, utf8 "b"⟩ (utf8 "b")]] ∧
    (evaluateBubble 4 Store.empty (utf8 "say \"a\" \"times\" \"b\"")).map Prod.fst =
      .ok (.string (utf8 "atimesb")) := by
  decide

/-! ## Assignment -/

/-- C8: interpreting an assignment to a non-empty name `n` returns the value
`v` of its expression in the old store and binds `n` to `v` in the new store,
leaving every other name as it was, so that the identifier `n` then evaluates
to `v`; running `x = 5` and then `say x plus 1` on the same store gives the
text `6`. -/
theorem C8_assignment (fuel : Nat) (memory : Store) (tok t : Token) (n : GoString)
    (E : Expression) (hn : n ≠ []) :
    (interpret memory [.AssignmentStatement tok n E]).1 = evalExpression memory E ∧
    (interpret memory [.AssignmentStatement tok n E]).2 n = some (evalExpression memory E) ∧
    (∀ k, k ≠ n → (interpret memory [.AssignmentStatement tok n E]).2 k = memory k) ∧
    evalExpression (interpret memory [.AssignmentStatement tok n E]).2 (.Identifier t n) =
      evalExpression memory E ∧
    (evaluateBubble (fuel + 1) Store.empty (utf8 "x = 5") >>= fun r =>
        evaluateBubble (fuel + 2) r.2 (utf8 "say x plus 1")).map Prod.fst =
      .ok (.string (utf8 "6")) := by
  have hs : interpret memory [.AssignmentStatement tok n E] =
      (evalExpression memory E, memory.set n (evalExpression memory E)) := by
    simp only [interpret, interpretLoop, if_pos hn]
  rw [hs]
  refine ⟨rfl, ?_, ?_, ?_, ?_⟩
  · simp only [Store.set, if_pos]
  · intro k hk
    simp only [Store.set, if_neg hk]
  · simp only [evalExpression, Store.set, if_pos]
  · have h1 : evaluateBubble 1 Store.empty (utf8 "x = 5") =
        .ok (.float64 (F64.ofNat 5), Store.empty.set (utf8 "x") (.float64 (F64.ofNat 5))) := rfl
    have h2 : (evaluateBubble 2 (Store.empty.set (utf8 "x") (.float64 (F64.ofNat 5)))
        (utf8 "say x plus 1")).map Prod.fst = .ok (.string (utf8 "6")) := by decide
    have e1 := evaluateBubble_fuel_add h1 fuel
    have e2 := evaluateBubble_result_fuel_add h2 fuel
    rw [Nat.add_comm] at e1 e2
    rw [e1, bind_ok]
    exact e2

/-- C8 at the statement `x = 5` in the empty store. -/
theorem C8_assignment_witness :
    utf8 "x" ≠ [] ∧
    (interpret Store.empty [.AssignmentStatement Token.zero (utf8 "x")
      (.NumberLiteral Token.zero (F64.ofNat 5))]).2 (utf8 "x") = some (.float64 (F64.ofNat 5)) :=
  ⟨by decide, (C8_assignment 0 Store.empty Token.zero Token.zero (utf8 "x")
    (.NumberLiteral Token.zero (F64.ofNat 5)) (by decide)).2.1⟩

/-! ## The remember form -/

theorem parseLoop_acc (tokens : List Token) :
    ∀ (fuel : Nat) (acc : List Statement) (i : Nat),
      parseLoop tokens fuel acc i = (parseLoop tokens fuel [] i).map (fun l => acc ++ l) := by
  intro fuel
  induction fuel with
  | zero =>
    intro acc i
    rw [parseLoop, parseLoop]
    split_ifs
    · rfl
    · simp [pure_eq_ok, Except.map]
  | succ fuel ih =>
    intro acc i
    have key : ∀ (stmt : Statement) (j : Nat),
        parseLoop tokens fuel (acc ++ [stmt]) j =
          (parseLoop tokens fuel ([] ++ [stmt]) j).map (fun l => acc ++ l) := by
      intro stmt j
      rw [ih (acc ++ [stmt]) j, ih ([] ++ [stmt]) j]
      cases parseLoop tokens fuel [] j with
      | error err => rfl
      | ok l => simp [Except.map]
    rw [parseLoop, parseLoop]
    split_ifs with hlen
    · cases tokenAt tokens i with
      | error err => rfl
      | ok t =>
        simp only [bind_ok]
        split_ifs with h1 h2 h3
        · cases parseAssignStatement tokens i with
          | error err => rfl
          | ok q => simp only [bind_ok]; exact key _ _
        · cases parseRememberStatement tokens i with
          | error err => rfl
          | ok q => simp only [bind_ok]; exact key _ _
        · cases parseSayStatement fuel tokens i with
          | error err => rfl
          | ok q => simp only [bind_ok]; exact key _ _
        · cases parseExpression tokens i with
          | error err => rfl
          | ok q => simp only [bind_ok]; exact key _ _
    · simp [pure_eq_ok, Except.map]

/-- The parse of `remember n as` followed by `rest`, by the parse of `rest`. -/
theorem parse_remember (fuel : Nat) (r n a : GoString) (rest : List Token) :
    parse (fuel + 1) (⟨TOKEN_REMEMBER, r⟩ :: ⟨TOKEN_IDENTIFIER, n⟩ :: ⟨TOKEN_AS, a⟩ :: rest) =
      parseExpression rest 0 >>= fun p =>
        (parseLoop rest fuel [] p.2).map
          (fun l => Statement.AssignmentStatement ⟨TOKEN_REMEMBER, r⟩ n p.1 :: l) := by
  have hexp : parseExpression
      (⟨TOKEN_REMEMBER, r⟩ :: ⟨TOKEN_IDENTIFIER, n⟩ :: ⟨TOKEN_AS, a⟩ :: rest) 3 =
      shiftCursor 3 (parseExpression rest 0) :=
    parseExpression_append [⟨TOKEN_REMEMBER, r⟩, ⟨TOKEN_IDENTIFIER, n⟩, ⟨TOKEN_AS, a⟩] rest 0
  have hloop : ∀ (statements : List Statement) (k : Nat), parseLoop
      (⟨TOKEN_REMEMBER, r⟩ :: ⟨TOKEN_IDENTIFIER, n⟩ :: ⟨TOKEN_AS, a⟩ :: rest) fuel statements
      (3 + k) = parseLoop rest fuel statements k :=
    parseLoop_append [⟨TOKEN_REMEMBER, r⟩, ⟨TOKEN_IDENTIFIER, n⟩, ⟨TOKEN_AS, a⟩] rest fuel
  have hstmt : parseRememberStatement
      (⟨TOKEN_REMEMBER, r⟩ :: ⟨TOKEN_IDENTIFIER, n⟩ :: ⟨TOKEN_AS, a⟩ :: rest) 0 =
      parseExpression rest 0 >>= fun p =>
        .ok (Statement.AssignmentStatement ⟨TOKEN_REMEMBER, r⟩ n p.1, 3 + p.2) := by
    unfold parseRememberStatement
    have h0 : tokenAt (⟨TOKEN_REMEMBER, r⟩ :: ⟨TOKEN_IDENTIFIER, n⟩ :: ⟨TOKEN_AS, a⟩ :: rest) 0 =
        .ok ⟨TOKEN_REMEMBER, r⟩ := rfl
    have h1 : tokenAt (⟨TOKEN_REMEMBER, r⟩ :: ⟨TOKEN_IDENTIFIER, n⟩ :: ⟨TOKEN_AS, a⟩ :: rest)
        (0 + 1) = .ok ⟨TOKEN_IDENTIFIER, n⟩ := rfl
    have t1 : typeAtIs (⟨TOKEN_REMEMBER, r⟩ :: ⟨TOKEN_IDENTIFIER, n⟩ :: ⟨TOKEN_AS, a⟩ :: rest)
        (0 + 1) TOKEN_IDENTIFIER = true := by simp [typeAtIs]
    have t2 : typeAtIs (⟨TOKEN_REMEMBER, r⟩ :: ⟨TOKEN_IDENTIFIER, n⟩ :: ⟨TOKEN_AS, a⟩ :: rest)
        (0 + 2) TOKEN_AS = true := by simp [typeAtIs]
    rw [h0, bind_ok, if_pos t1, h1, bind_ok, if_pos t2, Nat.zero_add, hexp]
    cases parseExpression rest 0 with
    | error err => rfl
    | ok p => rfl
  have h0 : tokenAt (⟨TOKEN_REMEMBER, r⟩ :: ⟨TOKEN_IDENTIFIER, n⟩ :: ⟨TOKEN_AS, a⟩ :: rest) 0 =
      .ok ⟨TOKEN_REMEMBER, r⟩ := rfl
  rw [parse, parseLoop, if_pos (by simp), h0, bind_ok, if_neg (by simp), if_pos rfl, hstmt]
  cases parseExpression rest 0 with
  | error err => rfl
  | ok p =>
    obtain ⟨e, j⟩ := p
    simp only [bind_ok]
    rw [hloop, parseLoop_acc]
    rfl

/-- The parse of `n =` followed by `rest`, by the parse of `rest`. -/
theorem parse_assign (fuel : Nat) (n q : GoString) (rest : List Token) :
    parse (fuel + 1) (⟨TOKEN_IDENTIFIER, n⟩ :: ⟨TOKEN_ASSIGN, q⟩ :: rest) =
      parseExpression rest 0 >>= fun p =>
        (parseLoop rest fuel [] p.2).map
          (fun l => Statement.AssignmentStatement ⟨TOKEN_IDENTIFIER, n⟩ n p.1 :: l) := by
  have hexp : parseExpression (⟨TOKEN_IDENTIFIER, n⟩ :: ⟨TOKEN_ASSIGN, q⟩ :: rest) 2 =
      shiftCursor 2 (parseExpression rest 0) :=
    parseExpression_append [⟨TOKEN_IDENTIFIER, n⟩, ⟨TOKEN_ASSIGN, q⟩] rest 0
  have hloop : ∀ (statements : List Statement) (k : Nat), parseLoop
      (⟨TOKEN_IDENTIFIER, n⟩ :: ⟨TOKEN_ASSIGN, q⟩ :: rest) fuel statements (2 + k) =
      parseLoop rest fuel statements k :=
    parseLoop_append [⟨TOKEN_IDENTIFIER, n⟩, ⟨TOKEN_ASSIGN, q⟩] rest fuel
  have h0 : tokenAt (⟨TOKEN_IDENTIFIER, n⟩ :: ⟨TOKEN_ASSIGN, q⟩ :: rest) 0 =
      .ok ⟨TOKEN_IDENTIFIER, n⟩ := rfl
  have t1 : typeAtIs (⟨TOKEN_IDENTIFIER, n⟩ :: ⟨TOKEN_ASSIGN, q⟩ :: rest) (0 + 1)
      TOKEN_ASSIGN = true := by simp [typeAtIs]
  have hstmt : parseAssignStatement (⟨TOKEN_IDENTIFIER, n⟩ :: ⟨TOKEN_ASSIGN, q⟩ :: rest) 0 =
      parseExpression rest 0 >>= fun p =>
        .ok (Statement.AssignmentStatement ⟨TOKEN_IDENTIFIER, n⟩ n p.1, 2 + p.2) := by
    unfold parseAssignStatement
    rw [h0, bind_ok, Nat.zero_add, hexp]
    cases parseExpression rest 0 with
    | error err => rfl
    | ok p => rfl
  rw [parse, parseLoop, if_pos (by simp), h0, bind_ok, if_pos ⟨rfl, t1⟩, hstmt]
  cases parseExpression rest 0 with
  | error err => rfl
  | ok p =>
    obtain ⟨e, j⟩ := p
    simp only [bind_ok]
    rw [hloop, parseLoop_acc]
    rfl

/-- C9: the `remember` form is an assignment. For every identifier text `n`
and every token sequence `rest`, the tokens `Remember n As rest` and
`n Assign rest` parse, on the same fuel, either both to statement lists that
differ only in the Token field of the first statement, an assignment to `n` of
the same value expression followed by the same statements, or both to the same
fault; `interpret` then gives the same result and store from any store; and
`remember y as 10` followed by `say y` gives the text `10`. -/
theorem C9_remember_is_assignment (fuel : Nat) (memory : Store) (r n a q : GoString)
    (rest : List Token) :
    ((∃ value stmts,
        parse fuel (⟨TOKEN_REMEMBER, r⟩ :: ⟨TOKEN_IDENTIFIER, n⟩ :: ⟨TOKEN_AS, a⟩ :: rest) =
          .ok (.AssignmentStatement ⟨TOKEN_REMEMBER, r⟩ n value :: stmts) ∧
        parse fuel (⟨TOKEN_IDENTIFIER, n⟩ :: ⟨TOKEN_ASSIGN, q⟩ :: rest) =
          .ok (.AssignmentStatement ⟨TOKEN_IDENTIFIER, n⟩ n value :: stmts)) ∨
     (∃ err,
        parse fuel (⟨TOKEN_REMEMBER, r⟩ :: ⟨TOKEN_IDENTIFIER, n⟩ :: ⟨TOKEN_AS, a⟩ :: rest) =
          .error err ∧
        parse fuel (⟨TOKEN_IDENTIFIER, n⟩ :: ⟨TOKEN_ASSIGN, q⟩ :: rest) = .error err)) ∧
    (parse fuel (⟨TOKEN_REMEMBER, r⟩ :: ⟨TOKEN_IDENTIFIER, n⟩ :: ⟨TOKEN_AS, a⟩ :: rest)).map
        (interpret memory) =
      (parse fuel (⟨TOKEN_IDENTIFIER, n⟩ :: ⟨TOKEN_ASSIGN, q⟩ :: rest)).map (interpret memory) ∧
    (evaluateBubble (fuel + 1) Store.empty (utf8 "remember y as 10") >>= fun s =>
        evaluateBubble (fuel + 2) s.2 (utf8 "say y")).map Prod.fst =
      .ok (.string (utf8 "10")) := by
  have hshape :
      (∃ value stmts,
        parse fuel (⟨TOKEN_REMEMBER, r⟩ :: ⟨TOKEN_IDENTIFIER, n⟩ :: ⟨TOKEN_AS, a⟩ :: rest) =
          .ok (.AssignmentStatement ⟨TOKEN_REMEMBER, r⟩ n value :: stmts) ∧
        parse fuel (⟨TOKEN_IDENTIFIER, n⟩ :: ⟨TOKEN_ASSIGN, q⟩ :: rest) =
          .ok (.AssignmentStatement ⟨TOKEN_IDENTIFIER, n⟩ n value :: stmts)) ∨
      (∃ err,
        parse fuel (⟨TOKEN_REMEMBER, r⟩ :: ⟨TOKEN_IDENTIFIER, n⟩ :: ⟨TOKEN_AS, a⟩ :: rest) =
          .error err ∧
        parse fuel (⟨TOKEN_IDENTIFIER, n⟩ :: ⟨TOKEN_ASSIGN, q⟩ :: rest) = .error err) := by
    cases fuel with
    | zero =>
      right
      refine ⟨.outOfFuel, ?_, ?_⟩
      · rw [parse, parseLoop, if_pos (by simp)]
      · rw [parse, parseLoop, if_pos (by simp)]
    | succ fuel =>
      rw [parse_remember, parse_assign]
      cases parseExpression rest 0 with
      | error err => exact Or.inr ⟨err, rfl, rfl⟩
      | ok p =>
        simp only [bind_ok]
        cases parseLoop rest fuel [] p.2 with
        | error err => exact Or.inr ⟨err, rfl, rfl⟩
        | ok l => exact Or.inl ⟨p.1, l, rfl, rfl⟩
  refine ⟨hshape, ?_, ?_⟩
  · rcases hshape with ⟨value, stmts, h1, h2⟩ | ⟨err, h1, h2⟩
    · rw [h1, h2]
      simp only [Except.map, interpret, interpretLoop]
    · rw [h1, h2]
  · have h1 : evaluateBubble 1 Store.empty (utf8 "remember y as 10") =
        .ok (.float64 (F64.ofNat 10), Store.empty.set (utf8 "y") (.float64 (F64.ofNat 10))) := rfl
    have h2 : (evaluateBubble 2 (Store.empty.set (utf8 "y") (.float64 (F64.ofNat 10)))
        (utf8 "say y")).map Prod.fst = .ok (.string (utf8 "10")) := by decide
    have e1 := evaluateBubble_fuel_add h1 fuel
    have e2 := evaluateBubble_result_fuel_add h2 fuel
    rw [Nat.add_comm] at e1 e2
    rw [e1, bind_ok]
    exact e2

/-! ## Identifiers -/

/-- C10: an identifier evaluates to the value bound to its name when the name
is bound in the store, and to the text of the name between `<` and `>` when it
is not; `say z` on the empty store gives the text `<z>`. -/
theorem C10_identifier (fuel : Nat) (memory : Store) (tok : Token) (n : GoString) :
    (∀ v, memory n = some v → evalExpression memory (.Identifier tok n) = v) ∧
    (memory n = none →
      evalExpression memory (.Identifier tok n) = .string (utf8 "<" ++ n ++ utf8 ">")) ∧
    (evaluateBubble (fuel + 2) Store.empty (utf8 "say z")).map Prod.fst =
      .ok (.string (utf8 "<z>")) := by
  refine ⟨?_, ?_, ?_⟩
  · intro v hv
    simp only [evalExpression, hv]
  · intro hnone
    simp only [evalExpression, hnone]
  · have h : (evaluateBubble 2 Store.empty (utf8 "say z")).map Prod.fst =
        .ok (.string (utf8 "<z>")) := by decide
    have e := evaluateBubble_result_fuel_add h fuel
    rw [Nat.add_comm] at e
    exact e

/-- C10 at the name `z`, bound to 5 in one store and unbound in the empty store. -/
theorem C10_identifier_witness :
    (Store.empty.set (utf8 "z") (.float64 (F64.ofNat 5))) (utf8 "z") =
      some (.float64 (F64.ofNat 5)) ∧
    evalExpression (Store.empty.set (utf8 "z") (.float64 (F64.ofNat 5)))
      (.Identifier Token.zero (utf8 "z")) = .float64 (F64.ofNat 5) ∧
    Store.empty (utf8 "z") = none ∧
    evalExpression Store.empty (.Identifier Token.zero (utf8 "z")) = .string (utf8 "<z>") :=
  ⟨rfl,
    (C10_identifier 0 (Store.empty.set (utf8 "z") (.float64 (F64.ofNat 5))) Token.zero
      (utf8 "z")).1 _ rfl,
    rfl,
    (C10_identifier 0 Store.empty Token.zero (utf8 "z")).2.1 rfl⟩

/-! ## The concatenation fallback -/

/-- C11: when at least one operand of an infix expression does not evaluate
to a number, the expression evaluates to the text of the left operand followed
by the text of the right operand, each formatted by `toString`, whatever the
operator; so `"foo" plus "bar"` and `"foo" minus "bar"` give `foobar` and
`"n=" plus 5` gives `n=5`. -/
theorem C11_concat_fallback (fuel : Nat) (memory : Store) (tok : Token) (L R : Expression)
    (op : GoString)
    (h : (∀ l, evalExpression memory L ≠ .float64 l) ∨
      (∀ r, evalExpression memory R ≠ .float64 r)) :
    evalExpression memory (.InfixExpression tok L op R) =
      .string (toString (evalExpression memory L) ++ toString (evalExpression memory R)) ∧
    (evaluateBubble (fuel + 1) memory (utf8 "\"foo\" plus \"bar\"")).map Prod.fst =
      .ok (.string (utf8 "foobar")) ∧
    (evaluateBubble (fuel + 1) memory (utf8 "\"foo\" minus \"bar\"")).map Prod.fst =
      .ok (.string (utf8 "foobar")) ∧
    (evaluateBubble (fuel + 1) memory (utf8 "\"n=\" plus 5")).map Prod.fst =
      .ok (.string (utf8 "n=5")) := by
  refine ⟨?_, ?_, ?_, ?_⟩
  · simp only [evalExpression]
    split
    · rename_i l r hl hr
      rcases h with h | h
      · exact absurd hl (h l)
      · exact absurd hr (h r)
    · rfl
  · refine @evaluateBubble_single _ Token.zero
      (.InfixExpression ⟨TOKEN_STRING, utf8 "bar"⟩
        (.StringLiteral ⟨TOKEN_STRING, utf8 "foo"⟩ (utf8 "foo")) (utf8 "plus")
        (.StringLiteral ⟨TOKEN_STRING, utf8 "bar"⟩ (utf8 "bar"))) _ memory fuel (by decide) ?_
    simp only [evalExpression]
    decide
  · refine @evaluateBubble_single _ Token.zero
      (.InfixExpression ⟨TOKEN_STRING, utf8 "bar"⟩
        (.StringLiteral ⟨TOKEN_STRING, utf8 "foo"⟩ (utf8 "foo")) (utf8 "minus")
        (.StringLiteral ⟨TOKEN_STRING, utf8 "bar"⟩ (utf8 "bar"))) _ memory fuel (by decide) ?_
    simp only [evalExpression]
    decide
  · refine @evaluateBubble_single _ Token.zero
      (.InfixExpression ⟨TOKEN_NUMBER, utf8 "5"⟩
        (.StringLiteral ⟨TOKEN_STRING, utf8 "n="⟩ (utf8 "n=")) (utf8 "plus")
        (.NumberLiteral ⟨TOKEN_NUMBER, utf8 "5"⟩ (F64.ofNat 5))) _ memory fuel (by decide) ?_
    simp only [evalExpression]
    decide

/-- C11 at `"foo" minus 5` in the empty store, whose left operand is a text. -/
theorem C11_concat_fallback_witness :
    ((∀ l, evalExpression Store.empty (.StringLiteral Token.zero (utf8 "foo")) ≠ .float64 l) ∨
      (∀ r, evalExpression Store.empty (.NumberLiteral Token.zero (F64.ofNat 5)) ≠
        .float64 r)) ∧
    evalExpression Store.empty (.InfixExpression Token.zero
        (.StringLiteral Token.zero (utf8 "foo")) (utf8 "minus")
        (.NumberLiteral Token.zero (F64.ofNat 5))) = .string (utf8 "foo5") :=
  ⟨Or.inl (fun l h => by cases h), by
    have h := (C11_concat_fallback 0 Store.empty Token.zero
      (.StringLiteral Token.zero (utf8 "foo")) (.NumberLiteral Token.zero (F64.ofNat 5))
      (utf8 "minus") (Or.inl (fun l h => by cases h))).1
    rw [h]
    decide⟩

/-! ## The tokens of `lex` -/

theorem tokenFromString_eq_cases (w : GoString) (t : Token) (ht : t = tokenFromString w) :
    t = ⟨TOKEN_PLUS, utf8 "plus"⟩ ∨ t = ⟨TOKEN_MINUS, utf8 "minus"⟩ ∨
    t = ⟨TOKEN_SAY, utf8 "say"⟩ ∨ t = ⟨TOKEN_TIMES, w⟩ ∨
    t = ⟨TOKEN_DIVIDED_BY, w⟩ ∨ t = ⟨TOKEN_IDENTIFIER, w⟩ ∨
    t = ⟨TOKEN_REMEMBER, utf8 "remember"⟩ ∨ t = ⟨TOKEN_AS, utf8 "as"⟩ ∨
    t = ⟨TOKEN_NUMBER, w⟩ := by
  unfold tokenFromString at ht
  by_cases h0 : w = utf8 "+"
  · rw [if_pos h0] at ht
    exact Or.inl ht
  rw [if_neg h0] at ht
  by_cases h1 : w = utf8 "-"
  · rw [if_pos h1] at ht
    exact Or.inr (Or.inl ht)
  rw [if_neg h1] at ht
  by_cases h2 : w = utf8 "say"
  · rw [if_pos h2] at ht
    subst h2
    exact Or.inr (Or.inr (Or.inl ht))
  rw [if_neg h2] at ht
  by_cases h3 : w = utf8 "plus"
  · rw [if_pos h3] at ht
    subst h3
    exact Or.inl ht
  rw [if_neg h3] at ht
  by_cases h4 : w = utf8 "minus"
  · rw [if_pos h4] at ht
    subst h4
    exact Or.inr (Or.inl ht)
  rw [if_neg h4] at ht
  by_cases h5 : w = utf8 "times"
  · rw [if_pos h5] at ht
    exact Or.inr (Or.inr (Or.inr (Or.inl ht)))
  rw [if_neg h5] at ht
  by_cases h6 : w = utf8 "*"
  · rw [if_pos h6] at ht
    exact Or.inr (Or.inr (Or.inr (Or.inl ht)))
  rw [if_neg h6] at ht
  by_cases h7 : w = utf8 "over"
  · rw [if_pos h7] at ht
    exact Or.inr (Or.inr (Or.inr (Or.inr (Or.inl ht))))
  rw [if_neg h7] at ht
  by_cases h8 : w = utf8 "/"
  · rw [if_pos h8] at ht
    exact Or.inr (Or.inr (Or.inr (Or.inr (Or.inl ht))))
  rw [if_neg h8] at ht
  by_cases h9 : w = utf8 "by"
  · rw [if_pos h9] at ht
    exact Or.inr (Or.inr (Or.inr (Or.inr (Or.inr (Or.inl ht)))))
  rw [if_neg h9] at ht
  by_cases h10 : w = utf8 "remember"
  · rw [if_pos h10] at ht
    subst h10
    exact Or.inr (Or.inr (Or.inr (Or.inr (Or.inr (Or.inr (Or.inl ht))))))
  rw [if_neg h10] at ht
  by_cases h11 : w = utf8 "as"
  · rw [if_pos h11] at ht
    subst h11
    exact Or.inr (Or.inr (Or.inr (Or.inr (Or.inr (Or.inr (Or.inr (Or.inl ht)))))))
  rw [if_neg h11] at ht
  by_cases hn : (ParseFloat w).2 = true
  · rw [if_pos hn] at ht
    exact Or.inr (Or.inr (Or.inr (Or.inr (Or.inr (Or.inr (Or.inr (Or.inr ht)))))))
  · rw [if_neg hn] at ht
    exact Or.inr (Or.inr (Or.inr (Or.inr (Or.inr (Or.inl ht)))))

theorem tokenFromString_cases (w : GoString) :
    tokenFromString w = ⟨TOKEN_PLUS, utf8 "plus"⟩ ∨
    tokenFromString w = ⟨TOKEN_MINUS, utf8 "minus"⟩ ∨
    tokenFromString w = ⟨TOKEN_SAY, utf8 "say"⟩ ∨ tokenFromString w = ⟨TOKEN_TIMES, w⟩ ∨
    tokenFromString w = ⟨TOKEN_DIVIDED_BY, w⟩ ∨ tokenFromString w = ⟨TOKEN_IDENTIFIER, w⟩ ∨
    tokenFromString w = ⟨TOKEN_REMEMBER, utf8 "remember"⟩ ∨
    tokenFromString w = ⟨TOKEN_AS, utf8 "as"⟩ ∨
    tokenFromString w = ⟨TOKEN_NUMBER, w⟩ :=
  tokenFromString_eq_cases w _ rfl

/-- A token that `lex` makes before the final one never has kind EndOfInput or
Help, and has the text `=`, `as`, `say` or `remember` when its kind is Assign,
As, Say or Remember. -/
theorem LexToken.kind {t : Token} (h : LexToken t) :
    t.Typ ≠ TOKEN_EOF ∧ t.Typ ≠ TOKEN_HELP ∧
    (t.Typ = TOKEN_ASSIGN ∨ t.Typ = TOKEN_AS ∨ t.Typ = TOKEN_SAY ∨ t.Typ = TOKEN_REMEMBER →
      t.Value ≠ utf8 "plus" ∧ t.Value ≠ utf8 "minus") := by
  rcases h with h | h | ⟨w, h⟩
  · rw [h]
    exact ⟨by decide, by decide, fun hc => by rcases hc with hc | hc | hc | hc <;> cases hc⟩
  · subst h
    exact ⟨by decide, by decide, fun _ => by decide⟩
  · rcases tokenFromString_cases w with e | e | e | e | e | e | e | e | e <;>
      rw [h, e] <;>
      refine ⟨by simp, by simp, fun hc => ?_⟩ <;>
      first
        | (exfalso; simp at hc; done)
        | decide

theorem flush_tokens {st : LexState} (h : ∀ t ∈ st.tokens, LexToken t) :
    ∀ t ∈ flush st, LexToken t := by
  intro t ht
  unfold flush at ht
  split_ifs at ht
  · rcases List.mem_append.mp ht with ht | ht
    · exact h t ht
    · rw [List.mem_singleton] at ht
      exact Or.inr (Or.inr ⟨_, ht⟩)
  · exact h t ht

theorem lexStep_tokens {st : LexState} (char : UInt8) (h : ∀ t ∈ st.tokens, LexToken t) :
    ∀ t ∈ (lexStep st char).tokens, LexToken t := by
  intro t ht
  unfold lexStep at ht
  split_ifs at ht
  · rcases List.mem_append.mp ht with ht | ht
    · exact h t ht
    · rw [List.mem_singleton] at ht
      exact Or.inl (by rw [ht])
  · exact h t ht
  · exact h t ht
  · exact flush_tokens h t ht
  · rcases List.mem_append.mp ht with ht | ht
    · exact flush_tokens h t ht
    · rw [List.mem_singleton] at ht
      exact Or.inr (Or.inl ht)
  · rcases List.mem_append.mp ht with ht | ht
    · exact flush_tokens h t ht
    · rw [List.mem_singleton] at ht
      exact Or.inr (Or.inr ⟨_, ht⟩)
  · exact h t ht

theorem foldl_lexStep_tokens (input : GoString) :
    ∀ (st : LexState), (∀ t ∈ st.tokens, LexToken t) →
      ∀ t ∈ (input.foldl lexStep st).tokens, LexToken t := by
  induction input with
  | nil => intro st h; exact h
  | cons c cs ih =>
    intro st h
    rw [List.foldl_cons]
    exact ih _ (lexStep_tokens c h)

/-- The tokens of `lex` are tokens made in one of the three ways, followed by
the EndOfInput token with empty text. -/
theorem lex_tokens (input : GoString) :
    ∃ toks, lex input = toks ++ [⟨TOKEN_EOF, []⟩] ∧ ∀ t ∈ toks, LexToken t :=
  ⟨flush (input.foldl lexStep {}), rfl,
    flush_tokens (foldl_lexStep_tokens input {} (fun t ht => by cases ht))⟩

/-- C12: for every input string, `lex` returns a token list that is not empty,
whose last token is the EndOfInput token with empty text, and in which no
earlier token has kind EndOfInput. -/
theorem C12_lex_ends_with_eof (input : GoString) :
    lex input ≠ [] ∧
    (lex input).getLast? = some ⟨TOKEN_EOF, []⟩ ∧
    ∀ t ∈ (lex input).dropLast, t.Typ ≠ TOKEN_EOF := by
  obtain ⟨toks, hl, ht⟩ := lex_tokens input
  rw [hl]
  refine ⟨by simp, by simp, ?_⟩
  intro t hmem
  rw [List.dropLast_concat] at hmem
  exact (ht t hmem).kind.1

/-! ## Lexing ASCII text -/

theorem lexStep_inQuotes {st : LexState} {char : UInt8} (hq : st.inQuotes = false)
    (hc : char ≠ 34) : (lexStep st char).inQuotes = false := by
  unfold lexStep
  rw [if_neg hc, hq]
  simp only [Bool.false_eq_true, if_false]
  split_ifs <;> rfl

theorem foldl_lexStep_inQuotes (a : GoString) :
    ∀ (st : LexState), st.inQuotes = false → (34 : UInt8) ∉ a →
      (a.foldl lexStep st).inQuotes = false := by
  induction a with
  | nil => intro st hq _; exact hq
  | cons c cs ih =>
    intro st hq ha
    rw [List.foldl_cons]
    have hc : c ≠ 34 := fun h => ha (by rw [h]; exact List.mem_cons_self _ _)
    exact ih _ (lexStep_inQuotes hq hc) (fun h => ha (List.mem_cons_of_mem _ h))

theorem tokenFromString_value {w : GoString} (h1 : w ≠ utf8 "+") (h2 : w ≠ utf8 "-") :
    (tokenFromString w).Value = w := by
  unfold tokenFromString
  rw [if_neg h1, if_neg h2]
  by_cases k0 : w = utf8 "say"
  · rw [if_pos k0]
  rw [if_neg k0]
  by_cases k1 : w = utf8 "plus"
  · rw [if_pos k1]
  rw [if_neg k1]
  by_cases k2 : w = utf8 "minus"
  · rw [if_pos k2]
  rw [if_neg k2]
  by_cases k3 : w = utf8 "times"
  · rw [if_pos k3]
  rw [if_neg k3]
  by_cases k4 : w = utf8 "*"
  · rw [if_pos k4]
  rw [if_neg k4]
  by_cases k5 : w = utf8 "over"
  · rw [if_pos k5]
  rw [if_neg k5]
  by_cases k6 : w = utf8 "/"
  · rw [if_pos k6]
  rw [if_neg k6]
  by_cases k7 : w = utf8 "by"
  · rw [if_pos k7]
  rw [if_neg k7]
  by_cases k8 : w = utf8 "remember"
  · rw [if_pos k8]
  rw [if_neg k8]
  by_cases k9 : w = utf8 "as"
  · rw [if_pos k9]
  rw [if_neg k9]
  by_cases kn : (ParseFloat w).2 = true
  · rw [if_pos kn]
  · rw [if_neg kn]

theorem byteToString_ascii {c : UInt8} (h : c.toNat < 128) : byteToString c = [c] := by
  unfold byteToString
  rw [if_pos h]

theorem lexStep_plain {st : LexState} {c : UInt8} (hq : st.inQuotes = false)
    (hc : plainByte c) : lexStep st c = { st with currentToken := st.currentToken ++ [c] } := by
  obtain ⟨h128, h34, h32, h61, h43, h45⟩ := hc
  unfold lexStep
  rw [if_neg h34, hq]
  simp only [Bool.false_eq_true, if_false]
  rw [if_neg h32, if_neg h61, if_neg (by rintro (h | h); exact h43 h; exact h45 h),
    byteToString_ascii h128]

theorem foldl_lexStep_plain (w : GoString) :
    ∀ (st : LexState), st.inQuotes = false → (∀ c ∈ w, plainByte c) →
      w.foldl lexStep st = { st with currentToken := st.currentToken ++ w } := by
  induction w with
  | nil => intro st _ _; simp
  | cons c cs ih =>
    intro st hq hw
    rw [List.foldl_cons, lexStep_plain hq (hw c (List.mem_cons_self _ _)),
      ih { st with currentToken := st.currentToken ++ [c] } hq
        (fun d hd => hw d (List.mem_cons_of_mem _ hd))]
    simp

/-- The token of a non-empty buffer of plain bytes is made again from its text. -/
theorem relexes_tokenFromString {w : GoString} (hne : w ≠ [])
    (hw : ∀ c ∈ w, plainByte c) : Relexes (tokenFromString w) := by
  have h1 : w ≠ utf8 "+" := by
    intro h
    have := hw 43 (by rw [h]; decide)
    exact this.2.2.2.2.1 rfl
  have h2 : w ≠ utf8 "-" := by
    intro h
    have := hw 45 (by rw [h]; decide)
    exact this.2.2.2.2.2 rfl
  intro toks
  rw [tokenFromString_value h1 h2, List.foldl_append, foldl_lexStep_plain w _ rfl hw]
  simp [lexStep, flush, hne]

theorem relexes_assign : Relexes ⟨TOKEN_ASSIGN, utf8 "="⟩ := by
  have ht : (⟨TOKEN_ASSIGN, utf8 "="⟩ : Token) = ⟨TOKEN_ASSIGN, [61]⟩ := by decide
  rw [ht]
  intro toks
  simp [lexStep, flush]
  decide

theorem relexes_sign {c : UInt8} (hc : c = 43 ∨ c = 45) :
    Relexes (tokenFromString (byteToString c)) := by
  rcases hc with rfl | rfl
  · have h : tokenFromString (byteToString 43) = tokenFromString (utf8 "plus") := by decide
    rw [h]
    exact relexes_tokenFromString (by decide) (by decide)
  · have h : tokenFromString (byteToString 45) = tokenFromString (utf8 "minus") := by decide
    rw [h]
    exact relexes_tokenFromString (by decide) (by decide)

/-- The state of `lex` on ASCII text without a double quote: outside quotes,
a buffer of plain bytes, and tokens that are made again from their texts. -/
theorem lexStep_ascii {st : LexState} {c : UInt8}
    (hq : st.inQuotes = false) (hcur : ∀ d ∈ st.currentToken, plainByte d)
    (htok : ∀ t ∈ st.tokens, Relexes t) (hc : c ≠ 34 ∧ c.toNat < 128) :
    (lexStep st c).inQuotes = false ∧ (∀ d ∈ (lexStep st c).currentToken, plainByte d) ∧
    ∀ t ∈ (lexStep st c).tokens, Relexes t := by
  have hflush : ∀ t ∈ flush st, Relexes t := by
    intro t ht
    unfold flush at ht
    split_ifs at ht with hne
    · rcases List.mem_append.mp ht with ht | ht
      · exact htok t ht
      · rw [List.mem_singleton] at ht
        rw [ht]
        exact relexes_tokenFromString hne hcur
    · exact htok t ht
  by_cases h32 : c = 32
  · subst h32
    refine ⟨lexStep_inQuotes hq (by decide), ?_, ?_⟩
    · simp [lexStep, hq]
    · intro t ht
      have : (lexStep st 32).tokens = flush st := by simp [lexStep, hq]
      rw [this] at ht
      exact hflush t ht
  by_cases h61 : c = 61
  · subst h61
    refine ⟨lexStep_inQuotes hq (by decide), ?_, ?_⟩
    · simp [lexStep, hq]
    · intro t ht
      have : (lexStep st 61).tokens = flush st ++ [⟨TOKEN_ASSIGN, utf8 "="⟩] := by
        simp [lexStep, hq]
      rw [this] at ht
      rcases List.mem_append.mp ht with ht | ht
      · exact hflush t ht
      · rw [List.mem_singleton] at ht
        rw [ht]
        exact relexes_assign
  by_cases hsign : c = 43 ∨ c = 45
  · refine ⟨lexStep_inQuotes hq hc.1, ?_, ?_⟩
    · rcases hsign with rfl | rfl <;> simp [lexStep, hq]
    · intro t ht
      have : (lexStep st c).tokens = flush st ++ [tokenFromString (byteToString c)] := by
        rcases hsign with rfl | rfl <;> simp [lexStep, hq]
      rw [this] at ht
      rcases List.mem_append.mp ht with ht | ht
      · exact hflush t ht
      · rw [List.mem_singleton] at ht
        rw [ht]
        exact relexes_sign hsign
  · have hplain : plainByte c :=
      ⟨hc.2, hc.1, h32, h61, fun h => hsign (Or.inl h), fun h => hsign (Or.inr h)⟩
    rw [lexStep_plain hq hplain]
    refine ⟨hq, ?_, htok⟩
    intro d hd
    rcases List.mem_append.mp hd with hd | hd
    · exact hcur d hd
    · rw [List.mem_singleton] at hd
      rw [hd]
      exact hplain

theorem foldl_lexStep_ascii (s : GoString) :
    ∀ (st : LexState), st.inQuotes = false → (∀ d ∈ st.currentToken, plainByte d) →
      (∀ t ∈ st.tokens, Relexes t) → (∀ c ∈ s, c ≠ 34 ∧ c.toNat < 128) →
      (∀ d ∈ (s.foldl lexStep st).currentToken, plainByte d) ∧
      ∀ t ∈ (s.foldl lexStep st).tokens, Relexes t := by
  induction s with
  | nil => intro st _ hcur htok _; exact ⟨hcur, htok⟩
  | cons c cs ih =>
    intro st hq hcur htok hs
    rw [List.foldl_cons]
    obtain ⟨hq', hcur', htok'⟩ := lexStep_ascii hq hcur htok (hs c (List.mem_cons_self _ _))
    exact ih _ hq' hcur' htok' (fun d hd => hs d (List.mem_cons_of_mem _ hd))

theorem joinSpaces_concat_nil (vs : List GoString) :
    joinSpaces (vs ++ [[]]) = vs.flatMap (fun v => v ++ [32]) := by
  induction vs with
  | nil => rfl
  | cons v vs ih =>
    cases vs with
    | nil => simp [joinSpaces]
    | cons w ws =>
      rw [List.cons_append, List.cons_append, joinSpaces, ← List.cons_append, ih]
      simp

theorem foldl_lexStep_relex (toks : List Token) :
    ∀ (acc : List Token), (∀ t ∈ toks, Relexes t) →
      (toks.flatMap (fun t => t.Value ++ [32])).foldl lexStep ⟨acc, false, []⟩ =
        ⟨acc ++ toks, false, []⟩ := by
  induction toks with
  | nil => intro acc _; simp
  | cons t ts ih =>
    intro acc h
    rw [List.flatMap_cons, List.foldl_append, h t (List.mem_cons_self _ _) acc,
      ih _ (fun u hu => h u (List.mem_cons_of_mem _ hu))]
    simp

/-- Tokenization idempotence on ASCII text: for every input without a double
quote and without a byte of 128 or more, lexing the texts of the tokens joined
with single spaces gives the same tokens. -/
theorem lex_joinSpaces_ascii (s : GoString) (hs : ∀ c ∈ s, c ≠ 34 ∧ c.toNat < 128) :
    lex (joinSpaces ((lex s).map Token.Value)) = lex s := by
  obtain ⟨hcur, htok⟩ := foldl_lexStep_ascii s {} rfl (fun d hd => by cases hd)
    (fun t ht => by cases ht) hs
  have hq : (s.foldl lexStep {}).inQuotes = false :=
    foldl_lexStep_inQuotes s {} rfl (fun h => (hs 34 h).1 rfl)
  have hflush : ∀ t ∈ flush (s.foldl lexStep {}), Relexes t := by
    intro t ht
    unfold flush at ht
    split_ifs at ht with hne
    · rcases List.mem_append.mp ht with ht | ht
      · exact htok t ht
      · rw [List.mem_singleton] at ht
        rw [ht]
        exact relexes_tokenFromString hne hcur
    · exact htok t ht
  have hl : lex s = flush (s.foldl lexStep {}) ++ [⟨TOKEN_EOF, []⟩] := rfl
  rw [hl, List.map_append, List.map_singleton, joinSpaces_concat_nil, List.flatMap_map]
  unfold lex
  have h0 := foldl_lexStep_relex (flush (s.foldl lexStep {})) [] hflush
  have hinit : ({} : LexState) = ⟨[], false, []⟩ := rfl
  rw [hinit, h0]
  simp [flush]

/-! ## Bytes outside ASCII -/

/-- C13 fails on the input `é`, the two bytes 195 and 169, which holds no
double quote: `lex` gives an Identifier token of four bytes, and lexing the
texts of its tokens joined with single spaces gives an Identifier token of
eight bytes, so the two token sequences differ. -/
theorem C13_relex_differs :
    lex [195, 169] = [⟨TOKEN_IDENTIFIER, [195, 131, 194, 169]⟩, ⟨TOKEN_EOF, []⟩] ∧
    lex (joinSpaces ((lex [195, 169]).map Token.Value)) =
      [⟨TOKEN_IDENTIFIER, [195, 131, 194, 131, 195, 130, 194, 169]⟩, ⟨TOKEN_EOF, []⟩] ∧
    lex (joinSpaces ((lex [195, 169]).map Token.Value)) ≠ lex [195, 169] := by
  decide

/-! ## The store -/

theorem interpretLoop_frame :
    ∀ (stmts : List Statement) (memory : Store) (r : Value) (k : GoString),
      (∀ tok e, Statement.AssignmentStatement tok k e ∈ stmts → k = []) →
      (interpretLoop memory r stmts).2 k = memory k := by
  intro stmts
  induction stmts with
  | nil => intro memory r k _; rfl
  | cons s rest ih =>
    intro memory r k h
    have hrest : ∀ tok e, Statement.AssignmentStatement tok k e ∈ rest → k = [] :=
      fun tok e hm => h tok e (List.mem_cons_of_mem _ hm)
    cases s with
    | AssignmentStatement tok name e =>
      simp only [interpretLoop]
      rw [ih _ _ k hrest]
      by_cases hname : name ≠ []
      · rw [if_pos hname]
        have hk : k ≠ name := by
          intro hkn
          subst hkn
          exact hname (h tok e (List.mem_cons_self _ _))
        simp only [Store.set, if_neg hk]
      · rw [if_neg hname]
    | SayStatement tok values =>
      simp only [interpretLoop]
      exact ih _ _ k hrest

theorem interpretLoop_keeps :
    ∀ (stmts : List Statement) (memory : Store) (r : Value) (k : GoString),
      (memory k).isSome = true → ((interpretLoop memory r stmts).2 k).isSome = true := by
  intro stmts
  induction stmts with
  | nil => intro memory r k h; exact h
  | cons s rest ih =>
    intro memory r k h
    cases s with
    | AssignmentStatement tok name e =>
      simp only [interpretLoop]
      apply ih
      by_cases hname : name ≠ []
      · rw [if_pos hname]
        by_cases hk : k = name
        · simp only [Store.set, if_pos hk, Option.isSome_some]
        · simp only [Store.set, if_neg hk]
          exact h
      · rw [if_neg hname]
        exact h
    | SayStatement tok values =>
      simp only [interpretLoop]
      exact ih _ _ k h

/-- C14: only an assignment to a non-empty name changes the store. After
`interpret` the store agrees with the store before on every name that is not
the non-empty name of an AssignmentStatement of the list; a Say statement and
a bare expression (empty name) leave the whole store as it was; and a name
that was bound is still bound. -/
theorem C14_store_frame (memory : Store) (stmts : List Statement) (k : GoString)
    (h : ∀ tok e, Statement.AssignmentStatement tok k e ∈ stmts → k = []) :
    (interpret memory stmts).2 k = memory k ∧
    (∀ tok values, (interpret memory [.SayStatement tok values]).2 = memory) ∧
    (∀ tok e, (interpret memory [.AssignmentStatement tok [] e]).2 = memory) ∧
    (∀ (other : List Statement) (n : GoString),
      (memory n).isSome = true → ((interpret memory other).2 n).isSome = true) :=
  ⟨interpretLoop_frame stmts memory .nil k h, fun _ _ => rfl, fun _ _ => rfl,
    fun other n hn => interpretLoop_keeps other memory .nil n hn⟩

/-- C14 at the statements of `x = 5` followed by `say x`, for the name `y`. -/
theorem C14_store_frame_witness :
    (∀ tok e, Statement.AssignmentStatement tok (utf8 "y") e ∈
        [Statement.AssignmentStatement Token.zero (utf8 "x")
          (.NumberLiteral Token.zero (F64.ofNat 5)),
         Statement.SayStatement Token.zero [.Identifier Token.zero (utf8 "x")]] →
      utf8 "y" = []) ∧
    (interpret (Store.empty.set (utf8 "y") (.string (utf8 "old")))
        [Statement.AssignmentStatement Token.zero (utf8 "x")
          (.NumberLiteral Token.zero (F64.ofNat 5)),
         Statement.SayStatement Token.zero [.Identifier Token.zero (utf8 "x")]]).2 (utf8 "y") =
      some (.string (utf8 "old")) := by
  have hy : ∀ tok e, Statement.AssignmentStatement tok (utf8 "y") e ∈
      [Statement.AssignmentStatement Token.zero (utf8 "x")
        (.NumberLiteral Token.zero (F64.ofNat 5)),
       Statement.SayStatement Token.zero [.Identifier Token.zero (utf8 "x")]] →
      utf8 "y" = [] := by
    intro tok e hm
    simp only [List.mem_cons, List.mem_singleton, Statement.AssignmentStatement.injEq,
      List.not_mem_nil, or_false] at hm
    rcases hm with ⟨_, hxy, _⟩ | hm
    · exact absurd hxy (by decide)
    · cases hm
  refine ⟨hy, ?_⟩
  rw [(C14_store_frame (Store.empty.set (utf8 "y") (.string (utf8 "old"))) _ (utf8 "y") hy).1]
  rfl

/-! ## Formatting in a Say statement -/

/-- C15 fails on the number 1000000: the line `say 1000000` gives the text
`1e+06`, formatted with the verb `%v`, while the line `"" plus 1000000` gives
the text `1000000`, formatted by `toString`. -/
theorem C15_say_format_differs (fuel : Nat) (memory : Store) :
    (evaluateBubble (fuel + 2) memory (utf8 "say 1000000")).map Prod.fst =
      .ok (.string (utf8 "1e+06")) ∧
    (evaluateBubble (fuel + 1) memory (utf8 "\"\" plus 1000000")).map Prod.fst =
      .ok (.string (utf8 "1000000")) := by
  constructor
  · have h1 : (evaluateBubble 2 memory (utf8 "say 1000000")).map Prod.fst =
        .ok (.string (utf8 "1e+06")) := by
      rw [evaluateBubble_eq]
      have hp : parse 2 (lex (utf8 "say 1000000")) = .ok [.SayStatement ⟨TOKEN_SAY, utf8 "say"⟩
          [.NumberLiteral ⟨TOKEN_NUMBER, utf8 "1000000"⟩ (F64.ofNat 1000000)]] := by decide
      rw [hp]
      simp only [Except.map, interpret, interpretLoop, List.foldl, evalExpression]
      decide
    have h2 := evaluateBubble_result_fuel_add h1 fuel
    rw [Nat.add_comm] at h2
    exact h2
  · refine @evaluateBubble_single _ Token.zero
      (.InfixExpression ⟨TOKEN_NUMBER, utf8 "1000000"⟩
        (.StringLiteral ⟨TOKEN_STRING, []⟩ []) (utf8 "plus")
        (.NumberLiteral ⟨TOKEN_NUMBER, utf8 "1000000"⟩ (F64.ofNat 1000000))) _ memory fuel
      (by decide) ?_
    simp only [evalExpression]
    decide

/-! ## Quoted text -/

/-- Inside quotes an ASCII byte other than the double quote is appended to the
buffer as it is. -/
theorem foldl_lexStep_quoted (s : GoString) :
    ∀ (st : LexState), st.inQuotes = true → (∀ c ∈ s, c ≠ 34 ∧ c.toNat < 128) →
      s.foldl lexStep st = { st with currentToken := st.currentToken ++ s } := by
  induction s with
  | nil => intro st _ _; simp
  | cons c cs ih =>
    intro st hq hs
    obtain ⟨h34, h128⟩ := hs c (List.mem_cons_self _ _)
    have hstep : lexStep st c = { st with currentToken := st.currentToken ++ [c] } := by
      unfold lexStep
      rw [if_neg h34, hq, if_pos rfl, byteToString_ascii h128]
    rw [List.foldl_cons, hstep, ih { st with currentToken := st.currentToken ++ [c] } hq
      (fun d hd => hs d (List.mem_cons_of_mem _ hd))]
    simp

/-- A quoted ASCII text without a double quote lexes to the one String token
that holds it. -/
theorem lex_quoted_ascii (s : GoString) (hs : ∀ c ∈ s, c ≠ 34 ∧ c.toNat < 128) :
    lex ([34] ++ s ++ [34]) = [⟨TOKEN_STRING, s⟩, ⟨TOKEN_EOF, []⟩] := by
  unfold lex
  rw [List.foldl_append, List.foldl_append]
  have h1 : List.foldl lexStep {} [34] = ⟨[], true, []⟩ := rfl
  rw [h1, foldl_lexStep_quoted s _ rfl hs]
  simp [lexStep, flush]

/-- C16 fails on the text `"é"`, the two bytes 195 and 169 between double
quotes: the String token holds the four bytes 195, 131, 194, 169, not the two
bytes of the input. -/
theorem C16_quoted_bytes_altered :
    lex ([34] ++ [195, 169] ++ [34]) =
      [⟨TOKEN_STRING, [195, 131, 194, 169]⟩, ⟨TOKEN_EOF, []⟩] ∧
    lex ([34] ++ [195, 169] ++ [34]) ≠ [⟨TOKEN_STRING, [195, 169]⟩, ⟨TOKEN_EOF, []⟩] := by
  decide

/-! ## Spaces around `+`, `-` and `=` -/

/-- Outside quotes, a space before and after `+`, `-` or `=` changes nothing. -/
theorem lexStep_spaced {st : LexState} {c : UInt8} (hq : st.inQuotes = false)
    (hc : c = 43 ∨ c = 45 ∨ c = 61) :
    lexStep (lexStep (lexStep st 32) c) 32 = lexStep st c := by
  obtain ⟨toks, q, cur⟩ := st
  simp only at hq
  subst hq
  rcases hc with rfl | rfl | rfl <;>
    simp [lexStep, flush]

/-- C17: spaces around `+`, `-` and `=` are optional. For all strings `a`
and `b`, where `a` holds no double quote, and for `c` one of the bytes `+`,
`-`, `=`, lexing `a c b` gives the tokens of `a`, space, `c`, space, `b`; so
`5+3` and `5 + 3` both give Number `5`, Plus `plus`, Number `3`, EndOfInput,
whereas `5*3` gives the one Identifier `5*3`. -/
theorem C17_optional_spaces (a b : GoString) (c : UInt8) (ha : (34 : UInt8) ∉ a)
    (hc : c = 43 ∨ c = 45 ∨ c = 61) :
    lex (a ++ [c] ++ b) = lex (a ++ [32] ++ [c] ++ [32] ++ b) ∧
    lex (utf8 "5+3") = [⟨TOKEN_NUMBER, utf8 "5"⟩, ⟨TOKEN_PLUS, utf8 "plus"⟩,
      ⟨TOKEN_NUMBER, utf8 "3"⟩, ⟨TOKEN_EOF, []⟩] ∧
    lex (utf8 "5 + 3") = lex (utf8 "5+3") ∧
    lex (utf8 "5*3") = [⟨TOKEN_IDENTIFIER, utf8 "5*3"⟩, ⟨TOKEN_EOF, []⟩] := by
  refine ⟨?_, by decide, by decide, by decide⟩
  unfold lex
  simp only [List.foldl_append, List.foldl_cons, List.foldl_nil]
  rw [lexStep_spaced (foldl_lexStep_inQuotes a {} rfl ha) hc]

/-- C17 at `a` the text `x`, `c` the byte `=` and `b` the text `1`. -/
theorem C17_optional_spaces_witness :
    (34 : UInt8) ∉ utf8 "x" ∧ ((61 : UInt8) = 43 ∨ (61 : UInt8) = 45 ∨ (61 : UInt8) = 61) ∧
    lex (utf8 "x" ++ [61] ++ utf8 "1") = lex (utf8 "x" ++ [32] ++ [61] ++ [32] ++ utf8 "1") :=
  ⟨by decide, by decide,
    (C17_optional_spaces (utf8 "x") (utf8 "1") 61 (by decide) (by decide)).1⟩

/-! ## Associativity -/

/-- C18: operators of the same tier associate to the left. For all Number
tokens `a`, `b`, `c` and additive operator tokens `o1`, `o2` (Plus or Minus),
the tokens `a o1 b o2 c EndOfInput` parse to the one bare-expression statement
`(a o1 b) o2 c`, and likewise for multiplicative operator tokens `p1`, `p2`
(Times or DividedBy); so `10 minus 3 minus 2` gives the number 5. -/
theorem C18_left_associative (fuel : Nat) (memory : Store) (a b c z : GoString)
    (o1 o2 p1 p2 : Token)
    (h1 : o1.Typ = TOKEN_PLUS ∨ o1.Typ = TOKEN_MINUS)
    (h2 : o2.Typ = TOKEN_PLUS ∨ o2.Typ = TOKEN_MINUS)
    (h3 : p1.Typ = TOKEN_TIMES ∨ p1.Typ = TOKEN_DIVIDED_BY)
    (h4 : p2.Typ = TOKEN_TIMES ∨ p2.Typ = TOKEN_DIVIDED_BY) :
    parse (fuel + 1) [⟨TOKEN_NUMBER, a⟩, o1, ⟨TOKEN_NUMBER, b⟩, o2, ⟨TOKEN_NUMBER, c⟩,
        ⟨TOKEN_EOF, z⟩] =
      .ok [.AssignmentStatement Token.zero []
        (.InfixExpression ⟨TOKEN_NUMBER, c⟩
          (.InfixExpression ⟨TOKEN_NUMBER, b⟩
            (.NumberLiteral ⟨TOKEN_NUMBER, a⟩ (ParseFloat a).1) o1.Value
            (.NumberLiteral ⟨TOKEN_NUMBER, b⟩ (ParseFloat b).1)) o2.Value
          (.NumberLiteral ⟨TOKEN_NUMBER, c⟩ (ParseFloat c).1))] ∧
    parse (fuel + 1) [⟨TOKEN_NUMBER, a⟩, p1, ⟨TOKEN_NUMBER, b⟩, p2, ⟨TOKEN_NUMBER, c⟩,
        ⟨TOKEN_EOF, z⟩] =
      .ok [.AssignmentStatement Token.zero []
        (.InfixExpression ⟨TOKEN_NUMBER, c⟩
          (.InfixExpression ⟨TOKEN_NUMBER, b⟩
            (.NumberLiteral ⟨TOKEN_NUMBER, a⟩ (ParseFloat a).1) p1.Value
            (.NumberLiteral ⟨TOKEN_NUMBER, b⟩ (ParseFloat b).1)) p2.Value
          (.NumberLiteral ⟨TOKEN_NUMBER, c⟩ (ParseFloat c).1))] ∧
    (evaluateBubble (fuel + 1) memory (utf8 "10 minus 3 minus 2")).map Prod.fst =
      .ok (.float64 (F64.ofNat 5)) := by
  obtain ⟨t1, v1⟩ := o1
  obtain ⟨t2, v2⟩ := o2
  obtain ⟨t3, v3⟩ := p1
  obtain ⟨t4, v4⟩ := p2
  simp only at h1 h2 h3 h4
  refine ⟨?_, ?_, ?_⟩
  · rcases h1 with rfl | rfl <;> rcases h2 with rfl | rfl <;>
      exact parse_single (j := 5) fuel (by simp) rfl (by simp) (by simp) (by simp) rfl (by simp)
  · rcases h3 with rfl | rfl <;> rcases h4 with rfl | rfl <;>
      exact parse_single (j := 5) fuel (by simp) rfl (by simp) (by simp) (by simp) rfl (by simp)
  · refine @evaluateBubble_single _ Token.zero
      (.InfixExpression ⟨TOKEN_NUMBER, utf8 "2"⟩
        (.InfixExpression ⟨TOKEN_NUMBER, utf8 "3"⟩
          (.NumberLiteral ⟨TOKEN_NUMBER, utf8 "10"⟩ (F64.ofNat 10)) (utf8 "minus")
          (.NumberLiteral ⟨TOKEN_NUMBER, utf8 "3"⟩ (F64.ofNat 3))) (utf8 "minus")
        (.NumberLiteral ⟨TOKEN_NUMBER, utf8 "2"⟩ (F64.ofNat 2))) _ memory fuel (by decide) ?_
    simp only [evalExpression]
    decide

/-- C18 at the tokens of `10 minus 3 minus 2` and of `8 over 4 over 2`. -/
theorem C18_left_associative_witness :
    ((⟨TOKEN_MINUS, utf8 "minus"⟩ : Token).Typ = TOKEN_PLUS ∨
      (⟨TOKEN_MINUS, utf8 "minus"⟩ : Token).Typ = TOKEN_MINUS) ∧
    ((⟨TOKEN_DIVIDED_BY, utf8 "over"⟩ : Token).Typ = TOKEN_TIMES ∨
      (⟨TOKEN_DIVIDED_BY, utf8 "over"⟩ : Token).Typ = TOKEN_DIVIDED_BY) ∧
    parse 1 [⟨TOKEN_NUMBER, utf8 "10"⟩, ⟨TOKEN_MINUS, utf8 "minus"⟩, ⟨TOKEN_NUMBER, utf8 "3"⟩,
        ⟨TOKEN_MINUS, utf8 "minus"⟩, ⟨TOKEN_NUMBER, utf8 "2"⟩, ⟨TOKEN_EOF, []⟩] =
      .ok [.AssignmentStatement Token.zero []
        (.InfixExpression ⟨TOKEN_NUMBER, utf8 "2"⟩
          (.InfixExpression ⟨TOKEN_NUMBER, utf8 "3"⟩
            (.NumberLiteral ⟨TOKEN_NUMBER, utf8 "10"⟩ (ParseFloat (utf8 "10")).1) (utf8 "minus")
            (.NumberLiteral ⟨TOKEN_NUMBER, utf8 "3"⟩ (ParseFloat (utf8 "3")).1)) (utf8 "minus")
          (.NumberLiteral ⟨TOKEN_NUMBER, utf8 "2"⟩ (ParseFloat (utf8 "2")).1))] :=
  ⟨by decide, by decide,
    (C18_left_associative 0 Store.empty (utf8 "10") (utf8 "3") (utf8 "2") []
      ⟨TOKEN_MINUS, utf8 "minus"⟩ ⟨TOKEN_MINUS, utf8 "minus"⟩
      ⟨TOKEN_DIVIDED_BY, utf8 "over"⟩ ⟨TOKEN_DIVIDED_BY, utf8 "over"⟩
      (by decide) (by decide) (by decide) (by decide)).1⟩

/-! ## The values held by the store -/

theorem evalExpression_ne_nil {memory : Store} {e : Expression}
    (hmem : ∀ n x, memory n = some x → x ≠ Value.nil) (he : e ≠ .nil) :
    evalExpression memory e ≠ .nil := by
  intro hnil
  rcases evalExpression_eq_nil hnil with h | ⟨t, n, h⟩
  · exact he h
  · subst h
    simp only [evalExpression] at hnil
    cases hm : memory n with
    | none => rw [hm] at hnil; cases hnil
    | some x =>
      rw [hm] at hnil
      exact hmem n x hm hnil

theorem interpretLoop_values :
    ∀ (stmts : List Statement) (memory : Store) (r : Value),
      (∀ n x, memory n = some x → x ≠ Value.nil) →
      (∀ tok name, Statement.AssignmentStatement tok name .nil ∈ stmts → name = []) →
      ∀ n x, (interpretLoop memory r stmts).2 n = some x → x ≠ Value.nil := by
  intro stmts
  induction stmts with
  | nil => intro memory r hmem _; exact hmem
  | cons s rest ih =>
    intro memory r hmem hs
    have hrest : ∀ tok name, Statement.AssignmentStatement tok name .nil ∈ rest → name = [] :=
      fun tok name hm => hs tok name (List.mem_cons_of_mem _ hm)
    cases s with
    | AssignmentStatement tok name e =>
      simp only [interpretLoop]
      apply ih _ _ _ hrest
      by_cases hname : name ≠ []
      · rw [if_pos hname]
        have he : e ≠ .nil := by
          intro h
          subst h
          exact hname (hs tok name (List.mem_cons_self _ _))
        intro n x hx
        simp only [Store.set] at hx
        split_ifs at hx with hn
        · cases hx
          exact evalExpression_ne_nil hmem he
        · exact hmem n x hx
      · rw [if_neg hname]
        exact hmem
    | SayStatement tok values =>
      simp only [interpretLoop]
      exact ih _ _ hmem hrest

/-- C19, as the code has it: if every binding of the store is a number or a
text, then after a line on which the pipeline returns, and whose statements
hold no assignment to a non-empty name with the absent expression as value,
every binding of the store is again a number or a text. -/
theorem C19_store_values (fuel : Nat) (memory : Store) (line : GoString)
    (stmts : List Statement)
    (hmem : ∀ n x, memory n = some x → x ≠ Value.nil)
    (hp : parse fuel (lex line) = .ok stmts)
    (hs : ∀ tok name, Statement.AssignmentStatement tok name .nil ∈ stmts → name = []) :
    evaluateBubble fuel memory line = .ok (interpret memory stmts) ∧
    ∀ n x, (interpret memory stmts).2 n = some x →
      (∃ f, x = .float64 f) ∨ (∃ s, x = .string s) := by
  refine ⟨by rw [evaluateBubble_eq, hp]; rfl, ?_⟩
  intro n x hx
  have hne := interpretLoop_values stmts memory .nil hmem hs n x hx
  cases x with
  | nil => exact absurd rfl hne
  | float64 f => exact Or.inl ⟨f, rfl⟩
  | string s => exact Or.inr ⟨s, rfl⟩

/-- C19 at the line `x = 5` in the empty store. -/
theorem C19_store_values_witness :
    (∀ n x, Store.empty n = some x → x ≠ Value.nil) ∧
    parse 1 (lex (utf8 "x = 5")) = .ok [.AssignmentStatement ⟨TOKEN_IDENTIFIER, utf8 "x"⟩
      (utf8 "x") (.NumberLiteral ⟨TOKEN_NUMBER, utf8 "5"⟩ (F64.ofNat 5))] ∧
    (∀ n x, (interpret Store.empty [.AssignmentStatement ⟨TOKEN_IDENTIFIER, utf8 "x"⟩
        (utf8 "x") (.NumberLiteral ⟨TOKEN_NUMBER, utf8 "5"⟩ (F64.ofNat 5))]).2 n = some x →
      (∃ f, x = .float64 f) ∨ (∃ s, x = .string s)) := by
  have hp : parse 1 (lex (utf8 "x = 5")) = .ok [.AssignmentStatement
      ⟨TOKEN_IDENTIFIER, utf8 "x"⟩ (utf8 "x")
      (.NumberLiteral ⟨TOKEN_NUMBER, utf8 "5"⟩ (F64.ofNat 5))] := by decide
  have hmem : ∀ n x, Store.empty n = some x → x ≠ Value.nil := fun n x h => by cases h
  refine ⟨hmem, hp, ?_⟩
  exact (C19_store_values 1 Store.empty (utf8 "x = 5") _ hmem hp (by
    intro tok name hm
    simp only [List.mem_singleton, Statement.AssignmentStatement.injEq] at hm
    exact absurd hm.2.2 (by simp))).2

/-- C19 as stated fails: from the empty store the line `remember x` parses to
an assignment to `x` of the absent expression, and leaves `x` bound to nil. -/
theorem C19_counterexample :
    parse 1 (lex (utf8 "remember x")) =
      .ok [.AssignmentStatement ⟨TOKEN_REMEMBER, utf8 "remember"⟩ (utf8 "x") .nil] ∧
    (evaluateBubble 1 Store.empty (utf8 "remember x")).map (fun r => r.2 (utf8 "x")) =
      .ok (some .nil) := by
  decide

/-! ## Progress of `parseExpression` -/

theorem parseFactor_ok {tokens : List Token} {k : Nat} (hk : k < tokens.length) :
    ∃ e j, parseFactor tokens k = .ok (e, j) ∧ k ≤ j ∧ j ≤ tokens.length := by
  rw [parseFactor_of_lt hk]
  split_ifs
  · exact ⟨_, _, rfl, by omega, by omega⟩
  · exact ⟨_, _, rfl, by omega, by omega⟩
  · exact ⟨_, _, rfl, by omega, by omega⟩
  · exact ⟨_, _, rfl, by omega, by omega⟩

theorem infixLoop_ok {tokens : List Token} {isOp : Token → Bool}
    {operand : Nat → Except Fault (Expression × Nat)}
    (hop : ∀ k, k < tokens.length →
      ∃ e j, operand k = .ok (e, j) ∧ k ≤ j ∧ j ≤ tokens.length) :
    ∀ (gas : Nat) (e : Expression) (i : Nat), i ≤ tokens.length →
      ∃ e' j, infixLoop tokens isOp operand gas e i = .ok (e', j) ∧ i ≤ j ∧
        j ≤ tokens.length := by
  intro gas
  induction gas with
  | zero =>
    intro e i hi
    exact ⟨e, i, rfl, Nat.le_refl _, hi⟩
  | succ gas ih =>
    intro e i hi
    rw [infixLoop]
    by_cases hlen : i + 1 < tokens.length
    · simp only [if_pos hlen, tokenAt_of_lt (show i < tokens.length by omega), bind_ok]
      by_cases hisop : isOp tokens[i] = true
      · simp only [if_pos hisop]
        obtain ⟨right, k, hk, hik, hklen⟩ := hop (i + 1) hlen
        obtain ⟨k', rfl⟩ : ∃ k', k = k' + 1 := ⟨k - 1, by omega⟩
        simp only [hk, bind_ok, tokenBefore_succ, tokenAt_of_lt (show k' < tokens.length by omega)]
        obtain ⟨e', j, hj, hkj, hjlen⟩ := ih (.InfixExpression tokens[k'] e tokens[i].Value right)
          (k' + 1) hklen
        exact ⟨e', j, hj, by omega, hjlen⟩
      · simp only [if_neg hisop]
        exact ⟨e, i, rfl, Nat.le_refl _, hi⟩
    · simp only [if_neg hlen]
      exact ⟨e, i, rfl, Nat.le_refl _, hi⟩

/-- A round of an operator loop on an operator token moves the cursor. -/
theorem infixLoop_advance {tokens : List Token} {isOp : Token → Bool}
    {operand : Nat → Except Fault (Expression × Nat)}
    (hop : ∀ k e j, operand k = .ok (e, j) → k ≤ j)
    {gas : Nat} {e e' : Expression} {i j : Nat} (hlen : i + 1 < tokens.length) {t : Token}
    (ht : tokens[i]? = some t) (hisop : isOp t = true)
    (h : infixLoop tokens isOp operand (gas + 1) e i = .ok (e', j)) : i + 1 ≤ j := by
  have hi : i < tokens.length := by omega
  have hti : tokens[i] = t := by
    rw [List.getElem?_eq_getElem hi] at ht
    exact Option.some.inj ht
  rw [infixLoop, if_pos hlen, tokenAt_of_lt hi, bind_ok, hti, if_pos hisop] at h
  cases hf : operand (i + 1) with
  | error err => rw [hf, bind_error] at h; cases h
  | ok p =>
    obtain ⟨right, k⟩ := p
    rw [hf, bind_ok] at h
    have hk := hop _ _ _ hf
    cases hb : tokenBefore tokens k with
    | error err => simp only [hb, bind_error] at h; cases h
    | ok tok =>
      simp only [hb, bind_ok] at h
      have := infixLoop_cursor hop _ _ _ _ _ h
      omega

theorem parseTerm_ok {tokens : List Token} {k : Nat} (hk : k < tokens.length) :
    ∃ e j, parseTerm tokens k = .ok (e, j) ∧ k ≤ j ∧ j ≤ tokens.length := by
  unfold parseTerm
  obtain ⟨e0, j0, h0, hle, hlen⟩ := parseFactor_ok hk
  simp only [h0, bind_ok, parseTermLoop_eq]
  obtain ⟨e', j, hj, hkj, hjlen⟩ :=
    @infixLoop_ok tokens isTermOp (parseFactor tokens) (fun k hk => parseFactor_ok hk)
      tokens.length e0 j0 hlen
  exact ⟨e', j, hj, by omega, hjlen⟩

theorem parseExpression_ok {tokens : List Token} {k : Nat} (hk : k < tokens.length) :
    ∃ e j, parseExpression tokens k = .ok (e, j) ∧ k ≤ j ∧ j ≤ tokens.length := by
  unfold parseExpression
  obtain ⟨e0, j0, h0, hle, hlen⟩ := parseTerm_ok hk
  simp only [h0, bind_ok, parseExpressionLoop_eq]
  obtain ⟨e', j, hj, hkj, hjlen⟩ :=
    @infixLoop_ok tokens isExprOp (parseTerm tokens) (fun k hk => parseTerm_ok hk)
      tokens.length e0 j0 hlen
  exact ⟨e', j, hj, by omega, hjlen⟩

/-- The cursor after `parseExpression`, by the kind and text of the token
under the cursor, when that token is not the last one. -/
theorem parseExpression_progress {tokens : List Token} {i : Nat} {t : Token}
    (hi : i + 1 < tokens.length) (ht : tokens[i]? = some t) :
    ∃ e j, parseExpression tokens i = .ok (e, j) ∧ i ≤ j ∧
      (j = i ↔ (isFactorToken t = false ∧ isTermOp t = false ∧ isExprOp t = false)) ∧
      (j = i → e = .nil) := by
  have hi' : i < tokens.length := by omega
  have hti : tokens[i] = t := by
    rw [List.getElem?_eq_getElem hi'] at ht
    exact Option.some.inj ht
  obtain ⟨g, hg⟩ : ∃ g, tokens.length = g + 1 := ⟨tokens.length - 1, by omega⟩
  have hcurF : ∀ k e j, parseFactor tokens k = .ok (e, j) → k ≤ j :=
    fun k e j hk => (parseFactor_cursor hk).1
  have hcurT : ∀ k e j, parseTerm tokens k = .ok (e, j) → k ≤ j :=
    fun k e j hk => parseTerm_cursor hk
  obtain ⟨e1, j1, hterm, hij1, _⟩ := @parseTerm_ok tokens i hi'
  obtain ⟨e, j, hexpr, hij, _⟩ := @parseExpression_ok tokens i hi'
  -- the loop of parseExpression starts where parseTerm stopped
  have hloopE : infixLoop tokens isExprOp (parseTerm tokens) (g + 1) e1 j1 = .ok (e, j) := by
    have h := hexpr
    unfold parseExpression at h
    rw [hterm, bind_ok] at h
    simp only [parseExpressionLoop_eq, hg] at h
    exact h
  have hj1j : j1 ≤ j := infixLoop_cursor hcurT _ _ _ _ _ hloopE
  refine ⟨e, j, hexpr, hij, ?_⟩
  by_cases hfac : isFactorToken t = true
  · -- a factor token is consumed by parseFactor
    have h0 : parseFactor tokens i = .ok (factorNode t, i + 1) := by
      rw [parseFactor_of_lt hi', hti]
      simp only [isFactorToken, decide_eq_true_eq] at hfac
      simp only [factorNode]
      split_ifs with a1 a2 a3
      · rfl
      · rfl
      · rfl
      · rcases hfac with h | h | h
        · exact absurd h a1
        · exact absurd h a2
        · exact absurd h a3
    have hloopT : infixLoop tokens isTermOp (parseFactor tokens) (g + 1) (factorNode t) (i + 1) =
        .ok (e1, j1) := by
      have h := hterm
      unfold parseTerm at h
      rw [h0, bind_ok] at h
      simp only [parseTermLoop_eq, hg] at h
      exact h
    have := infixLoop_cursor hcurF _ _ _ _ _ hloopT
    have hne : j ≠ i := by omega
    exact ⟨⟨fun h => absurd h hne, fun h => by rw [hfac] at h; cases h.1⟩,
      fun h => absurd h hne⟩
  · have hfac' : isFactorToken t = false := by
      cases h : isFactorToken t
      · rfl
      · exact absurd h hfac
    have h0 : parseFactor tokens i = .ok (.nil, i) := by
      rw [parseFactor_of_lt hi', hti]
      simp only [isFactorToken, decide_eq_false_iff_not, not_or] at hfac'
      rw [if_neg hfac'.1, if_neg hfac'.2.1, if_neg hfac'.2.2]
    have hloopT : infixLoop tokens isTermOp (parseFactor tokens) (g + 1) .nil i =
        .ok (e1, j1) := by
      have h := hterm
      unfold parseTerm at h
      rw [h0, bind_ok] at h
      simp only [parseTermLoop_eq, hg] at h
      exact h
    by_cases hterm' : isTermOp t = true
    · have := infixLoop_advance hcurF hi ht hterm' hloopT
      have hne : j ≠ i := by omega
      exact ⟨⟨fun h => absurd h hne, fun h => by rw [hterm'] at h; cases h.2.1⟩,
        fun h => absurd h hne⟩
    · have hterm'' : isTermOp t = false := by
        cases h : isTermOp t
        · rfl
        · exact absurd h hterm'
      rw [infixLoop_stop (g + 1) .nil hi' (by rw [hti]; exact hterm'')] at hloopT
      cases hloopT
      by_cases hexp : isExprOp t = true
      · have := infixLoop_advance hcurT hi ht hexp hloopE
        have hne : j ≠ i := by omega
        exact ⟨⟨fun h => absurd h hne, fun h => by rw [hexp] at h; cases h.2.2⟩,
          fun h => absurd h hne⟩
      · have hexp' : isExprOp t = false := by
          cases h : isExprOp t
          · rfl
          · exact absurd h hexp
        rw [infixLoop_stop (g + 1) .nil hi' (by rw [hti]; exact hexp')] at hloopE
        cases hloopE
        exact ⟨⟨fun _ => ⟨hfac', hterm'', hexp'⟩, fun _ => rfl⟩, fun _ => rfl⟩

/-- C20: progress of expression parsing. For every token sequence and every
cursor `i < len(tokens)-1`, `parseExpression` returns with a cursor that is not
before `i`; the cursor is still `i` exactly when the token at `i` is not a
Number, String, Identifier, Plus, Minus, Times or DividedBy token and its text
is neither `plus` nor `minus`, and then the result is the absent expression;
on the tokens of `lex` that is exactly when the token is an Assign, As, Say or
Remember token. -/
theorem C20_parseExpression_progress (tokens : List Token) (i : Nat) (t : Token)
    (hi : i + 1 < tokens.length) (ht : tokens[i]? = some t) :
    ∃ e j, parseExpression tokens i = .ok (e, j) ∧ i ≤ j ∧
      (j = i ↔
        (t.Typ ≠ TOKEN_NUMBER ∧ t.Typ ≠ TOKEN_STRING ∧ t.Typ ≠ TOKEN_IDENTIFIER ∧
         t.Typ ≠ TOKEN_PLUS ∧ t.Typ ≠ TOKEN_MINUS ∧ t.Typ ≠ TOKEN_TIMES ∧
         t.Typ ≠ TOKEN_DIVIDED_BY ∧ t.Value ≠ utf8 "plus" ∧ t.Value ≠ utf8 "minus")) ∧
      (j = i → e = .nil) ∧
      (∀ input, tokens = lex input →
        (j = i ↔ (t.Typ = TOKEN_ASSIGN ∨ t.Typ = TOKEN_AS ∨ t.Typ = TOKEN_SAY ∨
          t.Typ = TOKEN_REMEMBER))) := by
  obtain ⟨e, j, hexpr, hij, hiff, hnil⟩ := parseExpression_progress hi ht
  have hkinds : (isFactorToken t = false ∧ isTermOp t = false ∧ isExprOp t = false) ↔
      (t.Typ ≠ TOKEN_NUMBER ∧ t.Typ ≠ TOKEN_STRING ∧ t.Typ ≠ TOKEN_IDENTIFIER ∧
       t.Typ ≠ TOKEN_PLUS ∧ t.Typ ≠ TOKEN_MINUS ∧ t.Typ ≠ TOKEN_TIMES ∧
       t.Typ ≠ TOKEN_DIVIDED_BY ∧ t.Value ≠ utf8 "plus" ∧ t.Value ≠ utf8 "minus") := by
    simp only [isFactorToken, isTermOp, isExprOp, decide_eq_false_iff_not, not_or]
    tauto
  refine ⟨e, j, hexpr, hij, hiff.trans hkinds, hnil, ?_⟩
  intro input htok
  subst htok
  obtain ⟨toks, hl, hall⟩ := lex_tokens input
  have hmem : t ∈ toks := by
    rw [hl] at ht hi
    rw [List.length_append, List.length_singleton] at hi
    rw [List.getElem?_append_left (by omega)] at ht
    exact List.getElem?_mem ht
  obtain ⟨hneof, hnhelp, htext⟩ := (hall t hmem).kind
  rw [hiff.trans hkinds]
  constructor
  · rintro ⟨a1, a2, a3, a4, a5, a6, a7, -, -⟩
    cases hty : t.Typ <;> simp_all
  · intro h
    obtain ⟨b1, b2⟩ := htext h
    refine ⟨?_, ?_, ?_, ?_, ?_, ?_, ?_, b1, b2⟩ <;>
      (rcases h with h | h | h | h <;> rw [h] <;> decide)

/-- C20 at the tokens of `say =`, at the Assign token. -/
theorem C20_parseExpression_progress_witness :
    1 + 1 < (lex (utf8 "say =")).length ∧
    (lex (utf8 "say ="))[1]? = some ⟨TOKEN_ASSIGN, utf8 "="⟩ ∧
    ∃ e j, parseExpression (lex (utf8 "say =")) 1 = .ok (e, j) ∧ 1 ≤ j ∧
      (j = 1 → e = .nil) :=
  ⟨by decide, by decide, by
    obtain ⟨e, j, h1, h2, _, h4, _⟩ := C20_parseExpression_progress (lex (utf8 "say =")) 1
      ⟨TOKEN_ASSIGN, utf8 "="⟩ (by decide) (by decide)
    exact ⟨e, j, h1, h2, h4⟩⟩

end Bubble
